import Mathlib

/-
Verification development for the typeorm-graphql-loader core:
the GraphQL selection-tree builder (GraphQLInfoParser.flattenAST) and the
query resolver (GraphQLQueryResolver.createQuery / _selectRelations /
_selectFields / _selectEmbeddedFields / _selectPrimaryKey /
_selectRequiredFields), shallowly embedded in Lean.

Modelling conventions:
- JavaScript plain objects used as string-keyed maps (the `Hash<T>` type)
  are embedded as association lists with unique keys, preserving insertion
  order; `k in obj` / `obj.hasOwnProperty(k)` are own-key membership
  (prototype-chain artifacts of the JS `in` operator are abstracted away),
  `obj[k] = v` replaces in place when the key exists and appends otherwise
  (JS objects keep the original position of an overwritten key).
- TypeORM's SelectQueryBuilder is append-only from the resolver's point of
  view; it is embedded as an immutable record of a select list and a join
  list.  TypeORM builder methods mutate `this` and return it, so the
  unassigned calls in _selectRequiredFields still take effect; the
  immutable threading below is observationally the same.
- Machine integers in the MD5 hash are Nat with explicit % 2^32.
-/

/-! ## JavaScript object maps (Hash<T>) -/

abbrev JsMap (α : Type) : Type := List (String × α)

def jsGet {α : Type} : JsMap α → String → Option α
  | [], _ => none
  | (k, v) :: rest, key => if k = key then some v else jsGet rest key

def jsHas {α : Type} (m : JsMap α) (key : String) : Bool :=
  (jsGet m key).isSome

/-- JS assignment `obj[key] = v`: replace in place if the key exists
(keeping its position), append otherwise. -/
def jsSet {α : Type} : JsMap α → String → α → JsMap α
  | [], key, v => [(key, v)]
  | (k, w) :: rest, key, v =>
    if k = key then (k, v) :: rest else (k, w) :: jsSet rest key v

def jsKeys {α : Type} (m : JsMap α) : List String := m.map Prod.fst

theorem jsGet_append_left {α : Type} (m₁ m₂ : JsMap α) (k : String)
    (h : jsHas m₁ k = true) : jsGet (m₁ ++ m₂) k = jsGet m₁ k := by
  induction m₁ with
  | nil => simp [jsHas, jsGet] at h
  | cons hd tl ih =>
    obtain ⟨k', v⟩ := hd
    by_cases hk : k' = k
    · simp [jsGet, hk]
    · simp only [jsHas, jsGet, hk, if_false, List.cons_append] at h ⊢
      exact ih h

theorem jsGet_append_right {α : Type} (m₁ m₂ : JsMap α) (k : String)
    (h : jsHas m₁ k = false) : jsGet (m₁ ++ m₂) k = jsGet m₂ k := by
  induction m₁ with
  | nil => simp
  | cons hd tl ih =>
    obtain ⟨k', v⟩ := hd
    by_cases hk : k' = k
    · simp [jsHas, jsGet, hk] at h
    · simp only [jsHas, jsGet, hk, if_false, List.cons_append] at h ⊢
      exact ih h

theorem jsSet_append_of_not_has {α : Type} (m₁ m₂ : JsMap α) (k : String)
    (v : α) (h : jsHas m₁ k = false) :
    jsSet (m₁ ++ m₂) k v = m₁ ++ jsSet m₂ k v := by
  induction m₁ with
  | nil => simp
  | cons hd tl ih =>
    obtain ⟨k', w⟩ := hd
    by_cases hk : k' = k
    · simp [jsHas, jsGet, hk] at h
    · simp only [jsHas, jsGet, hk, if_false, List.cons_append, jsSet] at h ⊢
      exact congrArg _ (ih h)

/-! ## MD5 (crypto.createHash("md5"), digest("hex"))

The child-alias hash in GraphQLQueryResolver._generateChildHash uses
Node's MD5 over the UTF-8 bytes of the input string.  Embedded here from
the MD5 specification, with 32-bit words as Nat reduced mod 2^32. -/

def add32 (x y : Nat) : Nat := (x + y) % 4294967296

def not32 (x : Nat) : Nat := x ^^^ 4294967295

def rotl32 (x s : Nat) : Nat :=
  ((x <<< s) ||| (x >>> (32 - s))) % 4294967296

def mdK : List Nat :=
  [0xd76aa478, 0xe8c7b756, 0x242070db, 0xc1bdceee,
   0xf57c0faf, 0x4787c62a, 0xa8304613, 0xfd469501,
   0x698098d8, 0x8b44f7af, 0xffff5bb1, 0x895cd7be,
   0x6b901122, 0xfd987193, 0xa679438e, 0x49b40821,
   0xf61e2562, 0xc040b340, 0x265e5a51, 0xe9b6c7aa,
   0xd62f105d, 0x02441453, 0xd8a1e681, 0xe7d3fbc8,
   0x21e1cde6, 0xc33707d6, 0xf4d50d87, 0x455a14ed,
   0xa9e3e905, 0xfcefa3f8, 0x676f02d9, 0x8d2a4c8a,
   0xfffa3942, 0x8771f681, 0x6d9d6122, 0xfde5380c,
   0xa4beea44, 0x4bdecfa9, 0xf6bb4b60, 0xbebfbc70,
   0x289b7ec6, 0xeaa127fa, 0xd4ef3085, 0x04881d05,
   0xd9d4d039, 0xe6db99e5, 0x1fa27cf8, 0xc4ac5665,
   0xf4292244, 0x432aff97, 0xab9423a7, 0xfc93a039,
   0x655b59c3, 0x8f0ccc92, 0xffeff47d, 0x85845dd1,
   0x6fa87e4f, 0xfe2ce6e0, 0xa3014314, 0x4e0811a1,
   0xf7537e82, 0xbd3af235, 0x2ad7d2bb, 0xeb86d391]

def mdS : List Nat :=
  [7, 12, 17, 22, 7, 12, 17, 22, 7, 12, 17, 22, 7, 12, 17, 22,
   5, 9, 14, 20, 5, 9, 14, 20, 5, 9, 14, 20, 5, 9, 14, 20,
   4, 11, 16, 23, 4, 11, 16, 23, 4, 11, 16, 23, 4, 11, 16, 23,
   6, 10, 15, 21, 6, 10, 15, 21, 6, 10, 15, 21, 6, 10, 15, 21]

/-- One MD5 round on state (a, b, c, d) for round index i, with m giving
the 16 message words of the current 64-byte chunk. -/
def md5Round (m : Nat → Nat) (st : Nat × Nat × Nat × Nat) (i : Nat) :
    Nat × Nat × Nat × Nat :=
  let (a, b, c, d) := st
  let fg : Nat × Nat :=
    if i < 16 then ((b &&& c) ||| (not32 b &&& d), i)
    else if i < 32 then ((d &&& b) ||| (not32 d &&& c), (5 * i + 1) % 16)
    else if i < 48 then (b ^^^ c ^^^ d, (3 * i + 5) % 16)
    else (c ^^^ (b ||| not32 d), (7 * i) % 16)
  let f := add32 (add32 fg.1 a) (add32 (mdK.getD i 0) (m fg.2))
  (d, add32 b (rotl32 f (mdS.getD i 0)), b, c)

/-- Little-endian 32-bit word g of a 64-byte chunk. -/
def wordAt (chunk : List Nat) (g : Nat) : Nat :=
  chunk.getD (4 * g) 0 + 256 * chunk.getD (4 * g + 1) 0 +
    65536 * chunk.getD (4 * g + 2) 0 + 16777216 * chunk.getD (4 * g + 3) 0

def md5Chunk (chunk : List Nat) (h : Nat × Nat × Nat × Nat) :
    Nat × Nat × Nat × Nat :=
  let (a, b, c, d) := (List.range 64).foldl (md5Round (wordAt chunk)) h
  (add32 h.1 a, add32 h.2.1 b, add32 h.2.2.1 c, add32 h.2.2.2 d)

/-- MD5 padding: append 0x80, zero-pad to 56 mod 64, then the original
bit length as 8 little-endian bytes. -/
def md5Pad (msg : List Nat) : List Nat :=
  let len := msg.length
  let zeros := (64 + 56 - ((len + 1) % 64)) % 64
  msg ++ [128] ++ List.replicate zeros 0 ++
    (List.range 8).map (fun i => (((8 * len) % 18446744073709551616) >>> (8 * i)) % 256)

def chunks64 (l : List Nat) : List (List Nat) :=
  if hl : l = [] then [] else l.take 64 :: chunks64 (l.drop 64)
termination_by l.length
decreasing_by
  simp only [List.length_drop]
  have : l.length ≠ 0 := fun hn => hl (List.eq_nil_of_length_eq_zero hn)
  omega

def le4 (x : Nat) : List Nat :=
  [x % 256, (x >>> 8) % 256, (x >>> 16) % 256, (x >>> 24) % 256]

def md5Bytes (msg : List Nat) : List Nat :=
  let st := (chunks64 (md5Pad msg)).foldl (fun h chunk => md5Chunk chunk h)
    (0x67452301, 0xefcdab89, 0x98badcfe, 0x10325476)
  le4 st.1 ++ le4 st.2.1 ++ le4 st.2.2.1 ++ le4 st.2.2.2

def hexChars : List Char := "0123456789abcdef".toList

def byteHex (b : Nat) : List Char :=
  [hexChars.getD (b / 16 % 16) (Char.ofNat 48), hexChars.getD (b % 16) (Char.ofNat 48)]

def md5HexList (msg : List Nat) : List Char :=
  ((md5Bytes msg).map byteHex).flatten

/-- UTF-8 encoding of one code point (matches Node Buffer/hash.update
for well-formed strings). -/
def utf8Enc (c : Char) : List Nat :=
  let n := c.toNat
  if n < 128 then [n]
  else if n < 2048 then [192 + n / 64, 128 + n % 64]
  else if n < 65536 then [224 + n / 4096, 128 + (n / 64) % 64, 128 + n % 64]
  else [240 + n / 262144, 128 + (n / 4096) % 64, 128 + (n / 64) % 64, 128 + n % 64]

def strBytes (s : String) : List Nat := (s.toList.map utf8Enc).flatten

def md5Hex (s : String) : String := String.mk (md5HexList (strBytes s))

/-! ## Decoded GraphQL literal values (GraphQLInfoParser.parseLiteral)

Numeric literals go through JS parseFloat in the source; the numeric
value is kept symbolically as the raw literal text (floating-point
arithmetic is never inspected by the parser or the resolver). -/

inductive JsValue where
  | str (s : String)
  | boolVal (b : Bool)
  | num (raw : String)
  | obj (fields : List (String × JsValue))
  | arr (xs : List JsValue)
  | null

/-- GraphQL value AST nodes (the ValueNode kinds dispatched on by
parseLiteral; any unrecognized kind is `otherNode`). -/
inductive ValueNode where
  | strNode (s : String)
  | boolNode (b : Bool)
  | intNode (raw : String)
  | floatNode (raw : String)
  | objNode (fields : List (String × ValueNode))
  | listNode (xs : List ValueNode)
  | otherNode

mutual

/-- GraphQLInfoParser.parseLiteral (src/src/lib/GraphQLInfoParser.ts:145-165). -/
def parseLiteral : ValueNode → JsValue
  | .strNode s => .str s
  | .boolNode b => .boolVal b
  | .intNode raw => .num raw
  | .floatNode raw => .num raw
  | .objNode fields => .obj (parseObjFields fields [])
  | .listNode xs => .arr (parseLiteralList xs)
  | .otherNode => .null

/-- The OBJECT case: value[field.name] = parseLiteral(field.value) over
the fields in order (duplicate names overwrite in place). -/
def parseObjFields : List (String × ValueNode) → JsMap JsValue → JsMap JsValue
  | [], acc => acc
  | (n, v) :: rest, acc => parseObjFields rest (jsSet acc n (parseLiteral v))

def parseLiteralList : List ValueNode → List JsValue
  | [] => []
  | v :: rest => parseLiteral v :: parseLiteralList rest

end

/-! ## Selection trees (the Selection type of src/src/types.ts)

A Selection has an optional decoded-arguments map and an optional
children map; the `name`/`kind` fields of the TS type are never written
or read by the parser or the resolver and are omitted. -/

inductive Selection where
  | mk (arguments : Option (JsMap JsValue)) (children : Option (List (String × Selection)))

def Selection.arguments : Selection → Option (JsMap JsValue)
  | .mk a _ => a

def Selection.children : Selection → Option (JsMap Selection)
  | .mk _ c => c

mutual

def selSize : Selection → Nat
  | .mk _ none => 1
  | .mk _ (some m) => 2 + mapSize m

def mapSize : List (String × Selection) → Nat
  | [] => 0
  | (_, c) :: rest => 1 + selSize c + mapSize rest

end

def optSize : Option Selection → Nat
  | none => 0
  | some s => selSize s

theorem optSize_jsGet_lt (m : JsMap Selection) (k : String) :
    optSize (jsGet m k) < 1 + mapSize m := by
  induction m with
  | nil => simp [jsGet, optSize]
  | cons hd tl ih =>
    obtain ⟨k', c⟩ := hd
    by_cases hk : k' = k
    · simp only [jsGet, hk, if_true, optSize, mapSize]
      omega
    · simp only [jsGet, hk, if_false, mapSize]
      omega

/-! ## GraphQL request AST and GraphQLInfoParser.flattenAST

Field nodes carry a name, optional arguments and a (possibly empty)
selection set.  Named fragment spreads are resolved by the source
through a dictionary lookup (GraphQLInfoParser.getAST) and then
traversed exactly as if their defining selection set stood inline; they
are embedded here as inline fragments, which is that treatment for the
(validated, hence acyclic) documents the parser receives. -/

inductive ASTNode where
  | fieldNode (name : String) (args : Option (List (String × ValueNode))) (selections : List ASTNode)
  | inlineFragmentNode (selections : List ASTNode)

mutual

def astSize : ASTNode → Nat
  | .fieldNode _ _ sels => 1 + astListSize sels
  | .inlineFragmentNode sels => 1 + astListSize sels

def astListSize : List ASTNode → Nat
  | [] => 0
  | a :: rest => 1 + astSize a + astListSize rest

end

/-- GraphQLInfoParser.getSelections: the node's selection set, empty when
absent (src/src/lib/GraphQLInfoParser.ts:114-126). -/
def getSelections : ASTNode → List ASTNode
  | .fieldNode _ _ sels => sels
  | .inlineFragmentNode sels => sels

/-- Argument decoding at a field node (src/src/lib/GraphQLInfoParser.ts:97-103):
absent arguments give an empty map; otherwise each argument decodes via
parseLiteral and the singleton objects are spread-merged in order. -/
def decodeArgs : Option (List (String × ValueNode)) → JsMap JsValue
  | none => []
  | some l => l.foldl (fun p nv => jsSet p nv.1 (parseLiteral nv.2)) []

/-- GraphQLInfoParser.flattenAST's reduce over one selection list
(src/src/lib/GraphQLInfoParser.ts:78-112), with the accumulator object
threaded explicitly.  A fragment is flattened into the current level; a
field either merges into an existing same-named entry (children only,
via Object.assign on the existing node's children) or is added with its
decoded arguments and recursively flattened children.  When the existing
node has no children map the source would fault on Object.assign; the
embedding treats that children map as empty (parser-built nodes always
carry a children map, so the two never differ on parser output). -/
def flattenList : List ASTNode → JsMap Selection → JsMap Selection
  | [], flattened => flattened
  | n :: rest, flattened =>
    let merged : JsMap Selection :=
      match n with
      | .inlineFragmentNode sels => flattenList sels flattened
      | .fieldNode name args sels =>
        match jsGet flattened name with
        | some existing =>
          jsSet flattened name
            (Selection.mk existing.arguments
              (some (flattenList sels (existing.children.getD []))))
        | none =>
          jsSet flattened name
            (Selection.mk (some (decodeArgs args)) (some (flattenList sels [])))
    flattenList rest merged
termination_by l _ => astListSize l
decreasing_by
  · simp only [astListSize, astSize]; omega
  · simp only [astListSize, astSize]; omega
  · simp only [astListSize, astSize]; omega
  · simp only [astListSize]; omega

/-- GraphQLInfoParser.flattenAST on one AST node. -/
def flattenAST (ast : ASTNode) (obj : JsMap Selection) : JsMap Selection :=
  flattenList (getSelections ast) obj

/-- GraphQLInfoParser.graphqlFields (src/src/lib/GraphQLInfoParser.ts:24-37). -/
def graphqlFields (fieldNodes : List ASTNode) (obj : JsMap Selection) : Selection :=
  Selection.mk none (some (fieldNodes.foldl (fun o ast => flattenAST ast o) obj))

/-! ## Entity metadata (TypeORM EntityMetadata, as consumed by the resolver)

External read-only descriptors (spec section 3): columns with property
name, storage name and primary flag; embedded objects grouping member
columns; relations with property name and target entity.  A Connection
maps an entity target to its metadata (connection.getMetadata); metadata
lookup failure (spec section 7) raises in the source and is outside the
claims settled here. -/

structure ColumnMeta where
  propertyName : String
  databaseName : String
  isPrimary : Bool
deriving DecidableEq

structure EmbeddedMeta where
  propertyName : String
  columns : List ColumnMeta
deriving DecidableEq

structure RelationMeta where
  propertyName : String
  inverseTarget : String
deriving DecidableEq

structure EntityMeta where
  target : String
  columns : List ColumnMeta
  embeddeds : List EmbeddedMeta
  relations : List RelationMeta
deriving DecidableEq

def Connection : Type := String → EntityMeta

/-! ## Field policy registry and request context

Modelled from the spec: ConfigureLoader's getLoaderRequiredFields and
getLoaderIgnoredFields (src/ConfigureLoader.ts is not among the provided
sources).  Per spec sections 3 and 6, the registry yields per entity
target two lookups keyed by property name: required entries are a
constant boolean or a (context, requestedChildNames) -> bool predicate,
ignored entries are booleans.  The lookups are Maps, so iteration order
(used by _selectRequiredFields) is insertion order, embedded as
association lists.

The `context` argument of createQuery is typed `any` in the source; at
the recursive call site (src/unnamed/part_000:312-319) only six of the
seven arguments are supplied, so the number depth + 1 is passed in the
context position (and depth falls back to its default 0).  AnyVal embeds
that dynamically-typed slot: a caller-supplied context or a number. -/

inductive AnyVal (Ctx : Type) where
  | ctx (c : Ctx)
  | nat (n : Nat)

inductive RequiredSpec (Ctx : Type) where
  | const (b : Bool)
  | pred (f : AnyVal Ctx → List String → Bool)

structure Registry (Ctx : Type) where
  required : String → JsMap (RequiredSpec Ctx)
  ignored : String → JsMap Bool

/-- JS truthiness of `requiredFields.get(p)`: undefined is falsy, a
boolean is itself, a predicate (a function object) is truthy without
being invoked. -/
def reqTruthy {Ctx : Type} : Option (RequiredSpec Ctx) → Bool
  | none => false
  | some (.const b) => b
  | some (.pred _) => true

/-- JS truthiness of `ignoredFields.get(p)` (undefined is falsy). -/
def ignoredB {Ctx : Type} (reg : Registry Ctx) (target p : String) : Bool :=
  ((jsGet (reg.ignored target) p).getD false)

/-- Evaluation done by _selectRequiredFields (src/unnamed/part_000:343-346):
a predicate is invoked with the context and the requested child names, a
boolean stands for itself. -/
def evalRequired {Ctx : Type} (spec : RequiredSpec Ctx) (context : AnyVal Ctx)
    (childNames : List String) : Bool :=
  match spec with
  | .const b => b
  | .pred f => f context childNames

/-! ## Formatter

Modelled from the spec: the Formatter (src/lib/Formatter.ts is not among
the provided sources).  Per spec section 6 it is a pure function from
(alias, property or storage name) to the SQL column-selection expression
and the output projection alias; the naming-strategy parameter only
changes the rendered text and is fixed here. -/

def columnSelection (tableAlias field : String) : String := tableAlias ++ "." ++ field

def aliasField (tableAlias field : String) : String := tableAlias ++ "_" ++ field

/-! ## Query builder accumulator (TypeORM SelectQueryBuilder surface) -/

structure JoinEntry where
  withSelect : Bool
  expr : String
  childAlias : String
deriving DecidableEq

structure QB where
  selects : List (String × Option String)
  joins : List JoinEntry
deriving DecidableEq

def emptyQB : QB := ⟨[], []⟩

def QB.addSelect (qb : QB) (sel : String) (out : Option String) : QB :=
  { qb with selects := qb.selects ++ [(sel, out)] }

def QB.leftJoin (qb : QB) (expr childAlias : String) : QB :=
  { qb with joins := qb.joins ++ [⟨false, expr, childAlias⟩] }

def QB.leftJoinAndSelect (qb : QB) (expr childAlias : String) : QB :=
  { qb with joins := qb.joins ++ [⟨true, expr, childAlias⟩] }

/-! ## GraphQLQueryResolver -/

/-- Resolver configuration (constructor, src/unnamed/part_000:26-35):
primaryKeyColumn is the deprecated caller-supplied primary-key option;
maxDepth is maxQueryDepth with none standing for the Infinity default,
so the guard `depth < maxDepth` is always true when none. -/
structure Resolver where
  primaryKeyColumn : Option String
  maxDepth : Option Nat
deriving DecidableEq

def depthLtMax (r : Resolver) (depth : Nat) : Bool :=
  match r.maxDepth with
  | none => true
  | some m => decide (depth < m)

/-- GraphQLQueryResolver._generateChildHash (src/unnamed/part_000:37-52):
MD5 of `alias ++ "__" ++ propertyName` as lowercase hex, sliced to `len`
characters when len is nonzero (the source's default len is 0; the
relation-join call sites pass 10). -/
def generateChildHash (tableAlias propertyName : String) (len : Nat) : String :=
  let output := md5HexList (strBytes (tableAlias ++ "__" ++ propertyName))
  if len != 0 then String.mk (output.take len) else String.mk output

/-- GraphQLQueryResolver._selectPrimaryKey (src/unnamed/part_000:226-259):
with no configured primaryKeyColumn, do nothing; otherwise add a select
for it only when no selected field carries that property name. -/
def selectPrimaryKey (r : Resolver) (qb : QB) (fields : List ColumnMeta)
    (tableAlias : String) : QB :=
  match r.primaryKeyColumn with
  | none => qb
  | some pk =>
    match fields.find? (fun field => field.propertyName = pk) with
    | some _ => qb
    | none => qb.addSelect (columnSelection tableAlias pk) (some (aliasField tableAlias pk))

/-- GraphQLQueryResolver._selectFields (src/unnamed/part_000:195-215). -/
def selectFields (r : Resolver) (qb : QB) (fields : List ColumnMeta)
    (tableAlias : String) : QB :=
  fields.foldl
    (fun qb field =>
      qb.addSelect (columnSelection tableAlias field.propertyName)
        (some (aliasField tableAlias field.databaseName)))
    (selectPrimaryKey r qb fields tableAlias)

/-- GraphQLQueryResolver._selectEmbeddedFields (src/unnamed/part_000:137-185):
a required embed selects all member columns; otherwise an embed named in
the children map selects the member columns named in its sub-selection.
The source reads `embeddedSelection.children!` with a non-null
assertion; a missing children map is treated as empty here (parser-built
selections always carry one). -/
def selectEmbeddedFields {Ctx : Type} (reg : Registry Ctx) (qb : QB)
    (embeddedFields : List EmbeddedMeta) (children : JsMap Selection)
    (meta : EntityMeta) (tableAlias : String) : QB :=
  let requiredFields := reg.required meta.target
  let toSelect : List (List String) :=
    embeddedFields.foldl
      (fun acc field =>
        if reqTruthy (jsGet requiredFields field.propertyName) then
          acc ++ [field.columns.map
            (fun c => field.propertyName ++ "." ++ c.propertyName)]
        else if jsHas children field.propertyName then
          match jsGet children field.propertyName with
          | some embeddedSelection =>
            acc ++ [((field.columns.map (fun c => c.propertyName)).filter
              (fun columnName =>
                jsHas (embeddedSelection.children.getD []) columnName)).map
              (fun columnName => field.propertyName ++ "." ++ columnName)]
          | none => acc
        else acc)
      []
  toSelect.flatten.foldl
    (fun qb field => qb.addSelect (columnSelection tableAlias field) none) qb

mutual

/-- GraphQLQueryResolver.createQuery (src/unnamed/part_000:65-124).
The branch is taken when `selection && selection.children` is truthy: a
present-but-empty children map still enters it. -/
def createQuery {Ctx : Type} (r : Resolver) (reg : Registry Ctx)
    (conn : Connection) (model : String) (selection : Option Selection)
    (qb : QB) (tableAlias : String) (context : AnyVal Ctx) (depth : Nat) : QB :=
  let meta := conn model
  match selection with
  | some (Selection.mk _ (some children)) =>
      let requiredFields := reg.required meta.target
      let ignoredFields := reg.ignored meta.target
      let fields := meta.columns.filter
        (fun field =>
          !((jsGet ignoredFields field.propertyName).getD false) &&
          (field.isPrimary || jsHas children field.propertyName ||
            reqTruthy (jsGet requiredFields field.propertyName)))
      let embeddedFields := meta.embeddeds.filter
        (fun embed =>
          !((jsGet ignoredFields embed.propertyName).getD false) &&
          (jsHas children embed.propertyName ||
            reqTruthy (jsGet requiredFields embed.propertyName)))
      let qb := selectFields r qb fields tableAlias
      let qb := selectEmbeddedFields reg qb embeddedFields children meta tableAlias
      if depthLtMax r depth then
        selectRelations r reg conn qb children
          (meta.relations.filter
            (fun relation => !(ignoredB reg meta.target relation.propertyName)))
          tableAlias meta.target depth
      else qb
  | _ => qb
termination_by (optSize selection, 0)
decreasing_by
  apply Prod.Lex.left
  simp only [optSize, selSize]
  omega

/-- GraphQLQueryResolver._selectRelations (src/unnamed/part_000:274-323),
already restricted to the non-ignored relations by the caller's filter.
A relation is processed when named in the children map or required;
required relations use leftJoinAndSelect, others leftJoin.  The
recursive createQuery call reproduces the source's six-argument call:
depth + 1 is passed in the context position and depth restarts at its
default 0. -/
def selectRelations {Ctx : Type} (r : Resolver) (reg : Registry Ctx)
    (conn : Connection) (qb : QB) (children : JsMap Selection)
    (rels : List RelationMeta) (tableAlias : String) (target : String)
    (depth : Nat) : QB :=
  match rels with
  | [] => qb
  | relation :: rest =>
    let isRequired := reqTruthy (jsGet (reg.required target) relation.propertyName)
    let qbNext :=
      if jsHas children relation.propertyName || isRequired then
        let childAlias := generateChildHash tableAlias relation.propertyName 10
        let qbJoined :=
          if isRequired then
            qb.leftJoinAndSelect (columnSelection tableAlias relation.propertyName)
              childAlias
          else
            qb.leftJoin (columnSelection tableAlias relation.propertyName) childAlias
        createQuery r reg conn relation.inverseTarget
          (jsGet children relation.propertyName) qbJoined childAlias
          (AnyVal.nat (depth + 1)) 0
      else qb
    selectRelations r reg conn qbNext children rest tableAlias target depth
termination_by (1 + mapSize children, rels.length)
decreasing_by
  · apply Prod.Lex.left
    exact optSize_jsGet_lt children relation.propertyName
  · apply Prod.Lex.right
    simp only [List.length_cons]
    omega

end

/-- GraphQLQueryResolver._selectRequiredFields (src/unnamed/part_000:325-383).
Present in the source but never invoked by createQuery (the call at
lines 103-109 is commented out).  Iterates the required-fields map in
insertion order, evaluates each entry (invoking predicates with the
context and the requested child names) and, when required, selects the
matching column, eagerly joins the matching relation, or selects the
matching embed, in that lookup order. -/
def selectRequiredFields {Ctx : Type} (reg : Registry Ctx) (qb : QB)
    (children : JsMap Selection) (tableAlias : String) (meta : EntityMeta)
    (context : AnyVal Ctx) : QB :=
  (reg.required meta.target).foldl
    (fun qb entry =>
      let isRequired := evalRequired entry.2 context (jsKeys children)
      if !isRequired then qb
      else
        match meta.columns.find? (fun c => c.propertyName = entry.1) with
        | some col =>
          qb.addSelect (columnSelection tableAlias col.propertyName)
            (some (aliasField tableAlias col.databaseName))
        | none =>
          match meta.relations.find? (fun rel => rel.propertyName = entry.1) with
          | some rel =>
            qb.leftJoinAndSelect (columnSelection tableAlias rel.propertyName)
              (generateChildHash tableAlias rel.propertyName 10)
          | none =>
            match meta.embeddeds.find? (fun em => em.propertyName = entry.1) with
            | some em =>
              qb.addSelect (columnSelection tableAlias em.propertyName)
                (some (aliasField tableAlias em.propertyName))
            | none => qb)
    qb

/-! ## Planned additions

createQuery only ever appends to the builder.  The planned-addition
functions below compute, by the same recursion as createQuery, a
structured description of everything one call appends: each planned
select or join carries the relation path from the root call, the entity
target and alias of the level that produced it, and what is selected or
joined.  The characterization theorem createQuery_plan proves that
createQuery's output is exactly the input builder followed by the
rendered planned additions; all level-indexed claims are read off the
plan through that theorem. -/

inductive GSelKind where
  | pkKind (col : String)
  | columnKind (prop : String) (db : String)
  | embedKind (emb : String) (col : String)
deriving DecidableEq

structure GSel where
  path : List String
  target : String
  tableAlias : String
  kind : GSelKind
deriving DecidableEq

structure GJoin where
  path : List String
  target : String
  tableAlias : String
  prop : String
  withSelect : Bool
deriving DecidableEq

def renderSel (g : GSel) : String × Option String :=
  match g.kind with
  | .pkKind c => (columnSelection g.tableAlias c, some (aliasField g.tableAlias c))
  | .columnKind p db =>
    (columnSelection g.tableAlias p, some (aliasField g.tableAlias db))
  | .embedKind e c => (columnSelection g.tableAlias (e ++ "." ++ c), none)

def renderJoin (g : GJoin) : JoinEntry :=
  ⟨g.withSelect, columnSelection g.tableAlias g.prop,
    generateChildHash g.tableAlias g.prop 10⟩

def planPk (r : Resolver) (fields : List ColumnMeta) (target tableAlias : String) :
    List GSel :=
  match r.primaryKeyColumn with
  | none => []
  | some pk =>
    match fields.find? (fun field => field.propertyName = pk) with
    | some _ => []
    | none => [⟨[], target, tableAlias, .pkKind pk⟩]

def planFields (fields : List ColumnMeta) (target tableAlias : String) : List GSel :=
  fields.map (fun field =>
    GSel.mk [] target tableAlias (.columnKind field.propertyName field.databaseName))

/-- The zero-or-one member-column blocks _selectEmbeddedFields pushes onto
embeddedFieldsToSelect for one embed. -/
def embedBlocks {Ctx : Type} (reg : Registry Ctx) (children : JsMap Selection)
    (target : String) (field : EmbeddedMeta) : List (List String) :=
  if reqTruthy (jsGet (reg.required target) field.propertyName) then
    [field.columns.map (fun c => field.propertyName ++ "." ++ c.propertyName)]
  else if jsHas children field.propertyName then
    match jsGet children field.propertyName with
    | some embeddedSelection =>
      [((field.columns.map (fun c => c.propertyName)).filter
        (fun columnName =>
          jsHas (embeddedSelection.children.getD []) columnName)).map
        (fun columnName => field.propertyName ++ "." ++ columnName)]
    | none => []
  else []

def embedSels {Ctx : Type} (reg : Registry Ctx) (children : JsMap Selection)
    (target tableAlias : String) (field : EmbeddedMeta) : List GSel :=
  if reqTruthy (jsGet (reg.required target) field.propertyName) then
    field.columns.map (fun c =>
      GSel.mk [] target tableAlias (.embedKind field.propertyName c.propertyName))
  else if jsHas children field.propertyName then
    match jsGet children field.propertyName with
    | some embeddedSelection =>
      ((field.columns.map (fun c => c.propertyName)).filter
        (fun columnName =>
          jsHas (embeddedSelection.children.getD []) columnName)).map
        (fun columnName =>
          GSel.mk [] target tableAlias (.embedKind field.propertyName columnName))
    | none => []
  else []

def planEmbeds {Ctx : Type} (reg : Registry Ctx) (embeddedFields : List EmbeddedMeta)
    (children : JsMap Selection) (target tableAlias : String) : List GSel :=
  (embeddedFields.map (embedSels reg children target tableAlias)).flatten

def consPathSel (p : String) (g : GSel) : GSel := { g with path := p :: g.path }

def consPathJoin (p : String) (g : GJoin) : GJoin := { g with path := p :: g.path }

mutual

def planQuery {Ctx : Type} (r : Resolver) (reg : Registry Ctx) (conn : Connection)
    (model : String) (selection : Option Selection) (tableAlias : String)
    (depth : Nat) : List GSel × List GJoin :=
  let meta := conn model
  match selection with
  | some (Selection.mk _ (some children)) =>
      let requiredFields := reg.required meta.target
      let ignoredFields := reg.ignored meta.target
      let fields := meta.columns.filter
        (fun field =>
          !((jsGet ignoredFields field.propertyName).getD false) &&
          (field.isPrimary || jsHas children field.propertyName ||
            reqTruthy (jsGet requiredFields field.propertyName)))
      let embeddedFields := meta.embeddeds.filter
        (fun embed =>
          !((jsGet ignoredFields embed.propertyName).getD false) &&
          (jsHas children embed.propertyName ||
            reqTruthy (jsGet requiredFields embed.propertyName)))
      let levelSels := planPk r fields meta.target tableAlias ++
        planFields fields meta.target tableAlias ++
        planEmbeds reg embeddedFields children meta.target tableAlias
      if depthLtMax r depth then
        let relPlan := planRelations r reg conn children
          (meta.relations.filter
            (fun relation => !(ignoredB reg meta.target relation.propertyName)))
          tableAlias meta.target depth
        (levelSels ++ relPlan.1, relPlan.2)
      else (levelSels, [])
  | _ => ([], [])
termination_by (optSize selection, 0)
decreasing_by
  apply Prod.Lex.left
  simp only [optSize, selSize]
  omega

def planRelations {Ctx : Type} (r : Resolver) (reg : Registry Ctx)
    (conn : Connection) (children : JsMap Selection) (rels : List RelationMeta)
    (tableAlias : String) (target : String) (depth : Nat) :
    List GSel × List GJoin :=
  match rels with
  | [] => ([], [])
  | relation :: rest =>
    let isRequired := reqTruthy (jsGet (reg.required target) relation.propertyName)
    let here : List GSel × List GJoin :=
      if jsHas children relation.propertyName || isRequired then
        let childAlias := generateChildHash tableAlias relation.propertyName 10
        let sub := planQuery r reg conn relation.inverseTarget
          (jsGet children relation.propertyName) childAlias 0
        (sub.1.map (consPathSel relation.propertyName),
         GJoin.mk [] target tableAlias relation.propertyName isRequired ::
           sub.2.map (consPathJoin relation.propertyName))
      else ([], [])
    let restPlan := planRelations r reg conn children rest tableAlias target depth
    (here.1 ++ restPlan.1, here.2 ++ restPlan.2)
termination_by (1 + mapSize children, rels.length)
decreasing_by
  · apply Prod.Lex.left
    exact optSize_jsGet_lt children relation.propertyName
  · apply Prod.Lex.right
    simp only [List.length_cons]
    omega

end

theorem foldl_addSelect {β : Type} (f : β → String) (g : β → Option String)
    (l : List β) (qb : QB) :
    l.foldl (fun qb x => qb.addSelect (f x) (g x)) qb =
      ⟨qb.selects ++ l.map (fun x => (f x, g x)), qb.joins⟩ := by
  induction l generalizing qb with
  | nil => simp
  | cons x xs ih =>
    rw [List.foldl_cons, ih]
    simp [QB.addSelect]

theorem foldl_acc_append {α β : Type} (g : α → β) (l : List α) (acc : List β) :
    l.foldl (fun acc x => acc ++ [g x]) acc = acc ++ l.map g := by
  induction l generalizing acc with
  | nil => simp
  | cons x xs ih => simp [ih]

theorem selectPrimaryKey_plan (r : Resolver) (qb : QB) (fields : List ColumnMeta)
    (target tableAlias : String) :
    selectPrimaryKey r qb fields tableAlias =
      ⟨qb.selects ++ (planPk r fields target tableAlias).map renderSel, qb.joins⟩ := by
  unfold selectPrimaryKey planPk
  cases r.primaryKeyColumn with
  | none => simp
  | some pk =>
    cases h : fields.find? (fun field => field.propertyName = pk) with
    | some c => simp [h]
    | none => simp [h, QB.addSelect, renderSel]

theorem selectFields_plan (r : Resolver) (qb : QB) (fields : List ColumnMeta)
    (target tableAlias : String) :
    selectFields r qb fields tableAlias =
      ⟨qb.selects ++
        (planPk r fields target tableAlias ++
          planFields fields target tableAlias).map renderSel, qb.joins⟩ := by
  have hfold := foldl_addSelect
    (fun (field : ColumnMeta) => columnSelection tableAlias field.propertyName)
    (fun (field : ColumnMeta) => some (aliasField tableAlias field.databaseName))
  simp only [selectFields, hfold, selectPrimaryKey_plan r qb fields target tableAlias]
  simp [planFields, renderSel, List.map_map, Function.comp_def]

theorem embeds_foldl_step {Ctx : Type} (reg : Registry Ctx)
    (children : JsMap Selection) (target : String) (field : EmbeddedMeta)
    (acc : List (List String)) :
    (if reqTruthy (jsGet (reg.required target) field.propertyName) = true then
      acc ++ [List.map (fun c => field.propertyName ++ "." ++ c.propertyName) field.columns]
    else
      if jsHas children field.propertyName = true then
        match jsGet children field.propertyName with
        | some embeddedSelection =>
          acc ++
            [List.map (fun columnName => field.propertyName ++ "." ++ columnName)
                (List.filter
                  (fun columnName => jsHas (embeddedSelection.children.getD []) columnName)
                  (List.map (fun c => c.propertyName) field.columns))]
        | none => acc
      else acc) = acc ++ embedBlocks reg children target field := by
  unfold embedBlocks
  by_cases hreq : reqTruthy (jsGet (reg.required target) field.propertyName)
  · simp [hreq]
  · simp only [hreq, if_false, Bool.false_eq_true]
    by_cases hhas : jsHas children field.propertyName
    · simp only [hhas, if_true]
      cases jsGet children field.propertyName with
      | none => simp
      | some es => simp
    · simp [hhas]

theorem embeds_toSelect {Ctx : Type} (reg : Registry Ctx)
    (children : JsMap Selection) (target : String)
    (embeds : List EmbeddedMeta) (acc : List (List String)) :
    List.foldl
      (fun acc field =>
        if reqTruthy (jsGet (reg.required target) field.propertyName) = true then
          acc ++ [List.map (fun c => field.propertyName ++ "." ++ c.propertyName) field.columns]
        else
          if jsHas children field.propertyName = true then
            match jsGet children field.propertyName with
            | some embeddedSelection =>
              acc ++
                [List.map (fun columnName => field.propertyName ++ "." ++ columnName)
                    (List.filter
                      (fun columnName => jsHas (embeddedSelection.children.getD []) columnName)
                      (List.map (fun c => c.propertyName) field.columns))]
            | none => acc
          else acc)
      acc embeds =
      acc ++ (embeds.map (embedBlocks reg children target)).flatten := by
  induction embeds generalizing acc with
  | nil => simp
  | cons field rest ih =>
    rw [List.foldl_cons, embeds_foldl_step reg children target field acc, ih]
    simp

theorem embedBlocks_sels {Ctx : Type} (reg : Registry Ctx)
    (children : JsMap Selection) (target tableAlias : String)
    (field : EmbeddedMeta) :
    ((embedBlocks reg children target field).flatten).map
        (fun s => (columnSelection tableAlias s, (none : Option String))) =
      (embedSels reg children target tableAlias field).map renderSel := by
  unfold embedBlocks embedSels
  by_cases hreq : reqTruthy (jsGet (reg.required target) field.propertyName)
  · simp [hreq, renderSel, List.map_map, Function.comp_def]
  · simp only [hreq, if_false, Bool.false_eq_true]
    by_cases hhas : jsHas children field.propertyName
    · simp only [hhas, if_true]
      cases jsGet children field.propertyName with
      | none => simp
      | some es => simp [renderSel, List.map_map, Function.comp_def]
    · simp [hhas]

theorem selectEmbeddedFields_plan {Ctx : Type} (reg : Registry Ctx) (qb : QB)
    (embeddedFields : List EmbeddedMeta) (children : JsMap Selection)
    (meta : EntityMeta) (tableAlias : String) :
    selectEmbeddedFields reg qb embeddedFields children meta tableAlias =
      ⟨qb.selects ++
        (planEmbeds reg embeddedFields children meta.target tableAlias).map renderSel,
       qb.joins⟩ := by
  simp only [selectEmbeddedFields]
  rw [embeds_toSelect reg children meta.target embeddedFields []]
  rw [foldl_addSelect (fun (field : String) => columnSelection tableAlias field)
    (fun (_ : String) => (none : Option String))]
  simp only [List.nil_append, planEmbeds]
  congr 1
  congr 1
  induction embeddedFields with
  | nil => simp
  | cons field rest ih =>
    simp only [List.map_cons, List.flatten_cons, List.map_append, ih,
      List.flatten_append]
    rw [embedBlocks_sels reg children meta.target tableAlias field]

theorem joinIf_eq (b : Bool) (qb : QB) (e a : String) :
    (if b then qb.leftJoinAndSelect e a else qb.leftJoin e a) =
      ⟨qb.selects, qb.joins ++ [⟨b, e, a⟩]⟩ := by
  cases b <;> rfl

theorem renderSel_consPath (p : String) (g : GSel) :
    renderSel (consPathSel p g) = renderSel g := by
  cases g; rfl

theorem renderJoin_consPath (p : String) (g : GJoin) :
    renderJoin (consPathJoin p g) = renderJoin g := by
  cases g; rfl

theorem selSize_pos (s : Selection) : 1 ≤ selSize s := by
  cases s with
  | mk args childrenOpt =>
    cases childrenOpt with
    | none => simp [selSize]
    | some m =>
      simp only [selSize]
      omega

theorem map_renderSel_consPath (p : String) (l : List GSel) :
    List.map renderSel (List.map (consPathSel p) l) = List.map renderSel l := by
  rw [List.map_map]
  exact congrArg (fun f => List.map f l) (funext (renderSel_consPath p))

theorem map_renderJoin_consPath (p : String) (l : List GJoin) :
    List.map renderJoin (List.map (consPathJoin p) l) = List.map renderJoin l := by
  rw [List.map_map]
  exact congrArg (fun f => List.map f l) (funext (renderJoin_consPath p))

theorem selectRelations_plan {Ctx : Type} (r : Resolver) (reg : Registry Ctx)
    (conn : Connection) (children : JsMap Selection) (tableAlias target : String)
    (depth : Nat)
    (IH : ∀ (model : String) (sel : Option Selection) (qb : QB) (a : String)
      (ctx : AnyVal Ctx) (d : Nat), optSize sel < 1 + mapSize children →
      createQuery r reg conn model sel qb a ctx d =
        ⟨qb.selects ++ ((planQuery r reg conn model sel a d).1.map renderSel),
         qb.joins ++ ((planQuery r reg conn model sel a d).2.map renderJoin)⟩) :
    ∀ (rels : List RelationMeta) (qb : QB),
      selectRelations r reg conn qb children rels tableAlias target depth =
        ⟨qb.selects ++
          ((planRelations r reg conn children rels tableAlias target depth).1.map renderSel),
         qb.joins ++
          ((planRelations r reg conn children rels tableAlias target depth).2.map renderJoin)⟩ := by
  intro rels
  induction rels with
  | nil =>
    intro qb
    simp [selectRelations, planRelations]
  | cons relation rest ih =>
    intro qb
    rw [selectRelations, planRelations]
    by_cases hcond : jsHas children relation.propertyName ||
      reqTruthy (jsGet (reg.required target) relation.propertyName)
    · simp only [hcond, if_true]
      rw [joinIf_eq]
      rw [IH relation.inverseTarget (jsGet children relation.propertyName) _ _ _ _
        (optSize_jsGet_lt children relation.propertyName)]
      rw [ih]
      have hhead :
          renderJoin (GJoin.mk [] target tableAlias relation.propertyName
            (reqTruthy (jsGet (reg.required target) relation.propertyName))) =
            ⟨reqTruthy (jsGet (reg.required target) relation.propertyName),
             columnSelection tableAlias relation.propertyName,
             generateChildHash tableAlias relation.propertyName 10⟩ := rfl
      simp only [List.map_cons, List.map_append, map_renderSel_consPath,
        map_renderJoin_consPath, hhead, List.append_assoc, List.cons_append,
        List.singleton_append, List.nil_append]
    · simp only [hcond, if_false, Bool.false_eq_true]
      rw [ih]
      simp

theorem createQuery_plan_aux {Ctx : Type} (r : Resolver) (reg : Registry Ctx)
    (conn : Connection) :
    ∀ (N : Nat) (model : String) (sel : Option Selection) (qb : QB)
      (tableAlias : String) (ctx : AnyVal Ctx) (depth : Nat), optSize sel ≤ N →
      createQuery r reg conn model sel qb tableAlias ctx depth =
        ⟨qb.selects ++ ((planQuery r reg conn model sel tableAlias depth).1.map renderSel),
         qb.joins ++ ((planQuery r reg conn model sel tableAlias depth).2.map renderJoin)⟩ := by
  intro N
  induction N with
  | zero =>
    intro model sel qb tableAlias ctx depth h
    cases sel with
    | none => simp [createQuery, planQuery]
    | some s =>
      exfalso
      have := selSize_pos s
      simp only [optSize] at h
      omega
  | succ N ihN =>
    intro model sel qb tableAlias ctx depth h
    cases sel with
    | none => simp [createQuery, planQuery]
    | some s =>
      cases s with
      | mk args childrenOpt =>
        cases childrenOpt with
        | none => simp [createQuery, planQuery]
        | some children =>
          rw [createQuery, planQuery]
          simp only
          rw [selectFields_plan r qb _ (conn model).target tableAlias]
          rw [selectEmbeddedFields_plan]
          by_cases hdep : depthLtMax r depth
          · simp only [hdep, if_true]
            rw [selectRelations_plan r reg conn children tableAlias (conn model).target
              depth ?ihgoal]
            case ihgoal =>
              intro model' sel' qb' a' ctx' d' hlt
              apply ihN
              simp only [optSize, selSize] at h
              omega
            simp
          · simp only [hdep, if_false, Bool.false_eq_true]
            simp

/-- createQuery appends exactly the rendered planned additions to the
incoming builder; in particular it never reads, removes or reorders what
was already there, and what it appends does not depend on the builder,
the context argument, or anything but (model, selection, alias, depth). -/
theorem createQuery_plan {Ctx : Type} (r : Resolver) (reg : Registry Ctx)
    (conn : Connection) (model : String) (sel : Option Selection) (qb : QB)
    (tableAlias : String) (ctx : AnyVal Ctx) (depth : Nat) :
    createQuery r reg conn model sel qb tableAlias ctx depth =
      ⟨qb.selects ++ ((planQuery r reg conn model sel tableAlias depth).1.map renderSel),
       qb.joins ++ ((planQuery r reg conn model sel tableAlias depth).2.map renderJoin)⟩ :=
  createQuery_plan_aux r reg conn (optSize sel) model sel qb tableAlias ctx depth
    (Nat.le_refl _)

/-! ## Concrete fixtures used by the closed theorems -/

/-- A leaf selection as the parser builds it: empty arguments, empty children. -/
def leafSel : Selection := Selection.mk (some []) (some [])

def bookMeta : EntityMeta :=
  ⟨"Book", [⟨"id", "id", true⟩, ⟨"title", "title", false⟩,
    ⟨"publisherId", "publisherId", false⟩], [], [⟨"publisher", "Publisher"⟩]⟩

def pubMeta : EntityMeta :=
  ⟨"Publisher", [⟨"id", "id", true⟩, ⟨"name", "name", false⟩], [], []⟩

def connBP : Connection := fun t => if t = "Publisher" then pubMeta else bookMeta

/-- Policy marking Book.publisher required, nothing ignored. -/
def regReqPub : Registry Unit :=
  ⟨fun t => if t = "Book" then [("publisher", RequiredSpec.const true)] else [],
   fun _ => []⟩

/-- Selection {title, publisher {name}}. -/
def selBookPub : Selection :=
  Selection.mk (some [])
    (some [("title", leafSel),
      ("publisher", Selection.mk (some []) (some [("name", leafSel)]))])

def aMeta : EntityMeta := ⟨"A", [⟨"id", "id", true⟩], [], [⟨"r", "A"⟩]⟩

def connA : Connection := fun _ => aMeta

def regNone : Registry Unit := ⟨fun _ => [], fun _ => []⟩

/-- Selection {r {r}} reaching relation depth 2 below the root. -/
def selNested : Selection :=
  Selection.mk (some [])
    (some [("r", Selection.mk (some []) (some [("r", leafSel)]))])

/-! ## Claim theorems -/

/-- C1: the claim says relation traversal recurses with depth + 1 under the
guard depth < maxDepth, so no relation lying at depth >= maxDepth below the
root is ever joined.  Evaluating the code with maxQueryDepth = 1 on the
selection {r {r}} of a self-related entity joins BOTH relations: the
recursive call (src/unnamed/part_000:312-319) passes depth + 1 into the
context parameter and lets depth restart at 0, so the depth-2 relation
(childAlias.r) is joined even though 2 > maxDepth = 1. -/
theorem thm_C1 :
    ((createQuery ⟨none, some 1⟩ regNone connA "A" (some selNested) emptyQB "root"
      (AnyVal.ctx ()) 0).joins.map JoinEntry.expr) =
      ["root.r", columnSelection (generateChildHash "root" "r" 10) "r"] := by
  simp [createQuery, selectRelations, selNested, leafSel, connA, aMeta, regNone,
    selectFields, selectPrimaryKey, selectEmbeddedFields, depthLtMax, reqTruthy,
    ignoredB, jsGet, jsHas, jsSet, QB.addSelect, QB.leftJoin, QB.leftJoinAndSelect,
    emptyQB, columnSelection, aliasField]

/-- C2 (counterexample): with maxDepth = 0 the required (and selected, and
not ignored) relation Book.publisher is NOT joined — the whole
_selectRelations call sits inside the depth guard, so nothing bypasses it. -/
theorem thm_C2_cex :
    (createQuery ⟨none, some 0⟩ regReqPub connBP "Book" (some selBookPub) emptyQB
      "root" (AnyVal.ctx ()) 0).joins = [] := by
  simp [createQuery, selectRelations, selBookPub, leafSel, connBP, bookMeta, pubMeta,
    regReqPub, selectFields, selectPrimaryKey, selectEmbeddedFields, depthLtMax,
    reqTruthy, ignoredB, jsGet, jsHas, jsSet, QB.addSelect, QB.leftJoin,
    QB.leftJoinAndSelect, emptyQB, columnSelection, aliasField]

/-- C2 (amended): when maxDepth = 0, a root resolution (depth 0) joins no
relation at all — neither explicitly selected nor required relations; the
depth guard (src/unnamed/part_000:111) precedes all relation handling,
including required-relation eager joins. -/
theorem thm_C2 {Ctx : Type} (r : Resolver) (reg : Registry Ctx) (conn : Connection)
    (model : String) (sel : Option Selection) (qb : QB) (tableAlias : String)
    (ctx : AnyVal Ctx) (hmax : r.maxDepth = some 0) :
    (createQuery r reg conn model sel qb tableAlias ctx 0).joins = qb.joins := by
  rw [createQuery_plan]
  have hplan : (planQuery r reg conn model sel tableAlias 0).2 = [] := by
    cases sel with
    | none => simp [planQuery]
    | some s =>
      cases s with
      | mk args co =>
        cases co with
        | none => simp [planQuery]
        | some children =>
          rw [planQuery]
          simp [depthLtMax, hmax]
  simp [hplan]

theorem thm_C2_witness :
    (createQuery ⟨none, some 0⟩ regReqPub connBP "Book" (some selBookPub) emptyQB
      "root" (AnyVal.ctx ()) 0).joins = emptyQB.joins :=
  thm_C2 ⟨none, some 0⟩ regReqPub connBP "Book" (some selBookPub) emptyQB "root"
    (AnyVal.ctx ()) rfl

/-- C3: the claim (and the comment at src/unnamed/part_000:298-300) says a
required relation is eager-joined without recursing into its sub-selection.
Evaluating the code on Book with required relation publisher that the client
also selected with child name: the eager join is added, AND the recursive
createQuery call runs on children["publisher"], selecting Publisher.id and
Publisher.name under the child alias — the resolver does recurse. -/
theorem thm_C3 :
    (createQuery ⟨none, none⟩ regReqPub connBP "Book" (some selBookPub) emptyQB
      "root" (AnyVal.ctx ()) 0).joins =
      [⟨true, columnSelection "root" "publisher",
        generateChildHash "root" "publisher" 10⟩] ∧
    (createQuery ⟨none, none⟩ regReqPub connBP "Book" (some selBookPub) emptyQB
      "root" (AnyVal.ctx ()) 0).selects =
      [(columnSelection "root" "id", some (aliasField "root" "id")),
       (columnSelection "root" "title", some (aliasField "root" "title")),
       (columnSelection (generateChildHash "root" "publisher" 10) "id",
         some (aliasField (generateChildHash "root" "publisher" 10) "id")),
       (columnSelection (generateChildHash "root" "publisher" 10) "name",
         some (aliasField (generateChildHash "root" "publisher" 10) "name"))] := by
  constructor <;>
    simp [createQuery, selectRelations, selBookPub, leafSel, connBP, bookMeta,
      pubMeta, regReqPub, selectFields, selectPrimaryKey, selectEmbeddedFields,
      depthLtMax, reqTruthy, ignoredB, jsGet, jsHas, jsSet, QB.addSelect,
      QB.leftJoin, QB.leftJoinAndSelect, emptyQB]

/-- C4 (counterexample): a selection node whose children map is present but
empty does not leave the builder unchanged — the primary-key column is
still selected (the source's guard is the truthiness of selection.children,
and an empty object is truthy). -/
theorem thm_C4_cex :
    (createQuery ⟨none, none⟩ regNone connA "A"
      (some (Selection.mk (some []) (some []))) emptyQB "root"
      (AnyVal.ctx ()) 0).selects =
      [(columnSelection "root" "id", some (aliasField "root" "id"))] ∧
    createQuery ⟨none, none⟩ regNone connA "A"
      (some (Selection.mk (some []) (some []))) emptyQB "root"
      (AnyVal.ctx ()) 0 ≠ emptyQB := by
  have h : createQuery ⟨none, none⟩ regNone connA "A"
      (some (Selection.mk (some []) (some []))) emptyQB "root"
      (AnyVal.ctx ()) 0 =
      ⟨[(columnSelection "root" "id", some (aliasField "root" "id"))], []⟩ := by
    simp [createQuery, selectRelations, connA, aMeta, regNone, selectFields,
      selectPrimaryKey, selectEmbeddedFields, depthLtMax, reqTruthy, ignoredB,
      jsGet, jsHas, jsSet, QB.addSelect, QB.leftJoin, QB.leftJoinAndSelect, emptyQB]
  rw [h]
  constructor
  · rfl
  · intro hc
    simp [emptyQB] at hc

/-- C4 (amended): resolve returns the builder unchanged exactly in the two
source cases `selection` null and `selection.children` absent; a
present-but-empty children map instead enters the selection branch (see
the counterexample). -/
theorem thm_C4 {Ctx : Type} (r : Resolver) (reg : Registry Ctx) (conn : Connection)
    (model : String) (qb : QB) (tableAlias : String) (ctx : AnyVal Ctx)
    (depth : Nat) :
    createQuery r reg conn model none qb tableAlias ctx depth = qb ∧
    ∀ args : Option (JsMap JsValue),
      createQuery r reg conn model (some (Selection.mk args none)) qb tableAlias
        ctx depth = qb := by
  constructor
  · simp [createQuery]
  · intro args
    simp [createQuery]

/-! ## Hash-shape lemmas for the child alias -/

theorem md5Bytes_length (msg : List Nat) : (md5Bytes msg).length = 16 := by
  simp [md5Bytes, le4]

theorem md5HexList_length (msg : List Nat) : (md5HexList msg).length = 32 := by
  have h : ∀ l : List Nat, ((l.map byteHex).flatten).length = 2 * l.length := by
    intro l
    induction l with
    | nil => simp
    | cons b rest ih =>
      simp only [List.map_cons, List.flatten_cons, List.length_append, ih, byteHex]
      simp
      omega
  simp [md5HexList, h, md5Bytes_length]

theorem getD_mem_or_default {α : Type} (l : List α) (d : α) (i : Nat) :
    l.getD i d ∈ l ∨ l.getD i d = d := by
  induction l generalizing i with
  | nil => right; simp [List.getD]
  | cons a t ih =>
    cases i with
    | zero => left; simp
    | succ n =>
      rcases ih n with h | h
      · left
        simp only [List.getD_cons_succ]
        exact List.mem_cons_of_mem a h
      · right
        simpa using h

theorem byteHex_mem (b : Nat) (c : Char) (h : c ∈ byteHex b) : c ∈ hexChars := by
  have h0 : Char.ofNat 48 ∈ hexChars := by decide
  simp only [byteHex, List.mem_cons, List.not_mem_nil, or_false] at h
  rcases h with h | h <;>
  · subst h
    rcases getD_mem_or_default hexChars (Char.ofNat 48) _ with hm | hm
    · exact hm
    · rw [hm]; exact h0

theorem md5HexList_mem (msg : List Nat) (c : Char) (h : c ∈ md5HexList msg) :
    c ∈ hexChars := by
  simp only [md5HexList, List.mem_flatten, List.mem_map] at h
  obtain ⟨l, ⟨b, _, rfl⟩, hc⟩ := h
  exact byteHex_mem b c hc

theorem generateChildHash_data (a p : String) :
    (generateChildHash a p 10).data = (md5Hex (a ++ "__" ++ p)).data.take 10 := by
  simp [generateChildHash, md5Hex]

theorem generateChildHash_length (a p : String) :
    (generateChildHash a p 10).length = 10 := by
  have h := md5HexList_length (strBytes (a ++ "__" ++ p))
  simp [String.length, generateChildHash, List.length_take, h]

/-- C8: the child alias is a pure deterministic content hash of
(parent alias, relation property name): it is the 10-character truncation
of the MD5 hex digest of `alias ++ "__" ++ propertyName`, 10 characters
long, all lowercase hex; and the joins a resolution appends are the
rendered planned joins, which depend on neither the incoming builder nor
the context, so re-resolving the same selection tree from the same root
alias appends identical joins with identical child aliases. -/
theorem thm_C8 (Ctx : Type) :
    (∀ a p : String, (generateChildHash a p 10).length = 10) ∧
    (∀ a p : String,
      (generateChildHash a p 10).data.all (fun c => hexChars.contains c) = true) ∧
    (∀ a p : String,
      (generateChildHash a p 10).data = (md5Hex (a ++ "__" ++ p)).data.take 10) ∧
    (∀ (r : Resolver) (reg : Registry Ctx) (conn : Connection) (model : String)
      (sel : Option Selection) (tableAlias : String) (depth : Nat)
      (qb1 qb2 : QB) (ctx1 ctx2 : AnyVal Ctx),
      ((createQuery r reg conn model sel qb1 tableAlias ctx1 depth).joins).drop
          qb1.joins.length =
        ((createQuery r reg conn model sel qb2 tableAlias ctx2 depth).joins).drop
          qb2.joins.length ∧
      ((createQuery r reg conn model sel qb1 tableAlias ctx1 depth).joins).drop
          qb1.joins.length =
        (planQuery r reg conn model sel tableAlias depth).2.map renderJoin) := by
  refine ⟨generateChildHash_length, ?_, generateChildHash_data, ?_⟩
  · intro a p
    rw [List.all_eq_true]
    intro c hc
    have hmem : c ∈ (generateChildHash a p 10).data := hc
    rw [generateChildHash_data] at hmem
    have : c ∈ (md5Hex (a ++ "__" ++ p)).data := List.mem_of_mem_take hmem
    have hhex : c ∈ hexChars := md5HexList_mem _ c this
    exact List.elem_eq_true_of_mem hhex
  · intro r reg conn model sel tableAlias depth qb1 qb2 ctx1 ctx2
    rw [createQuery_plan, createQuery_plan]
    simp [List.drop_left]

/-! ## Shape lemmas about the plan -/

theorem embedSels_shape {Ctx : Type} (reg : Registry Ctx) (children : JsMap Selection)
    (target tableAlias : String) (field : EmbeddedMeta) (g : GSel)
    (h : g ∈ embedSels reg children target tableAlias field) :
    ∃ e c, g = GSel.mk [] target tableAlias (.embedKind e c) := by
  unfold embedSels at h
  by_cases hreq : reqTruthy (jsGet (reg.required target) field.propertyName)
  · simp only [hreq, if_true, List.mem_map] at h
    obtain ⟨c, _, rfl⟩ := h
    exact ⟨_, _, rfl⟩
  · simp only [hreq, if_false, Bool.false_eq_true] at h
    by_cases hhas : jsHas children field.propertyName
    · simp only [hhas, if_true] at h
      cases hg : jsGet children field.propertyName with
      | none => rw [hg] at h; simp at h
      | some es =>
        rw [hg] at h
        simp only [List.mem_map] at h
        obtain ⟨c, _, rfl⟩ := h
        exact ⟨_, _, rfl⟩
    · simp [hhas] at h

theorem planEmbeds_shape {Ctx : Type} (reg : Registry Ctx)
    (embeds : List EmbeddedMeta) (children : JsMap Selection)
    (target tableAlias : String) (g : GSel)
    (h : g ∈ planEmbeds reg embeds children target tableAlias) :
    ∃ e c, g = GSel.mk [] target tableAlias (.embedKind e c) := by
  simp only [planEmbeds, List.mem_flatten, List.mem_map] at h
  obtain ⟨l, ⟨field, _, rfl⟩, hg⟩ := h
  exact embedSels_shape reg children target tableAlias field g hg

theorem planRelations_sel_path {Ctx : Type} (r : Resolver) (reg : Registry Ctx)
    (conn : Connection) (children : JsMap Selection) (tableAlias target : String)
    (depth : Nat) :
    ∀ (rels : List RelationMeta) (g : GSel),
      g ∈ (planRelations r reg conn children rels tableAlias target depth).1 →
      g.path ≠ [] := by
  intro rels
  induction rels with
  | nil =>
    intro g hg
    rw [planRelations] at hg
    simp at hg
  | cons relation rest ih =>
    intro g hg
    rw [planRelations] at hg
    simp only [List.mem_append] at hg
    rcases hg with hg | hg
    · by_cases hcond : jsHas children relation.propertyName ||
        reqTruthy (jsGet (reg.required target) relation.propertyName)
      · simp only [hcond, if_true, List.mem_map] at hg
        obtain ⟨g0, _, rfl⟩ := hg
        simp [consPathSel]
      · simp [hcond] at hg
    · exact ih g hg

/-- C5: with no deprecated primary-key option configured and well-formed
metadata (distinct column property names), the root-level column
projections of a resolution are exactly the non-ignored columns that are
primary, requested in the children map, or required-by-truthiness; the
first conjunct ties the planned selects to the builder output, the second
characterizes exactly which column entries the plan holds at the root
level (path []). -/
theorem thm_C5 {Ctx : Type} (r : Resolver) (reg : Registry Ctx) (conn : Connection)
    (model : String) (args : Option (JsMap JsValue)) (children : JsMap Selection)
    (qb : QB) (tableAlias : String) (ctx : AnyVal Ctx) (depth : Nat)
    (hpk : r.primaryKeyColumn = none)
    (hnodup : ((conn model).columns.map ColumnMeta.propertyName).Nodup) :
    (createQuery r reg conn model (some (Selection.mk args (some children))) qb
      tableAlias ctx depth).selects =
      qb.selects ++
        ((planQuery r reg conn model (some (Selection.mk args (some children)))
          tableAlias depth).1.map renderSel) ∧
    ∀ c ∈ (conn model).columns,
      (GSel.mk [] (conn model).target tableAlias
          (.columnKind c.propertyName c.databaseName) ∈
        (planQuery r reg conn model (some (Selection.mk args (some children)))
          tableAlias depth).1) ↔
      (ignoredB reg (conn model).target c.propertyName = false ∧
        (c.isPrimary = true ∨ jsHas children c.propertyName = true ∨
          reqTruthy (jsGet (reg.required (conn model).target) c.propertyName) = true)) := by
  constructor
  · rw [createQuery_plan]
  · intro c hc
    rw [planQuery]
    simp only [hpk, planPk]
    set F := (conn model).columns.filter
      (fun field =>
        !((jsGet (reg.ignored (conn model).target) field.propertyName).getD false) &&
        (field.isPrimary || jsHas children field.propertyName ||
          reqTruthy (jsGet (reg.required (conn model).target) field.propertyName)))
      with hF
    have hmemF : (GSel.mk [] (conn model).target tableAlias
        (.columnKind c.propertyName c.databaseName) ∈
          planFields F (conn model).target tableAlias) ↔ c ∈ F := by
      constructor
      · intro hm
        simp only [planFields, List.mem_map] at hm
        obtain ⟨c', hc', heq⟩ := hm
        have hprop : c'.propertyName = c.propertyName := by
          have := congrArg GSel.kind heq
          simp only at this
          injection this with h1 h2
        have hc'cols : c' ∈ (conn model).columns := List.mem_of_mem_filter hc'
        have : c' = c := by
          have hinj := List.inj_on_of_nodup_map hnodup
          exact hinj hc'cols hc hprop
        rw [← this]
        exact hc'
      · intro hm
        simp only [planFields, List.mem_map]
        exact ⟨c, hm, rfl⟩
    have hcond : c ∈ F ↔
        (ignoredB reg (conn model).target c.propertyName = false ∧
          (c.isPrimary = true ∨ jsHas children c.propertyName = true ∨
            reqTruthy (jsGet (reg.required (conn model).target) c.propertyName)
              = true)) := by
      rw [hF, List.mem_filter]
      simp only [ignoredB, Bool.and_eq_true, Bool.or_eq_true, Bool.not_eq_true',
        and_iff_right hc]
      rw [or_assoc]
    rw [← hcond, ← hmemF]
    by_cases hdep : depthLtMax r depth
    · simp only [hdep, if_true, List.nil_append, List.mem_append]
      constructor
      · intro hm
        rcases hm with hm | hm
        · rcases hm with hm | hm
          · exact hm
          · exfalso
            obtain ⟨e, col, hcol⟩ := planEmbeds_shape reg _ children _ tableAlias _ hm
            have := congrArg GSel.kind hcol
            simp at this
        · exfalso
          exact planRelations_sel_path r reg conn children tableAlias
            (conn model).target depth _ _ hm rfl
      · intro hm
        exact Or.inl (Or.inl hm)
    · simp only [hdep, if_false, Bool.false_eq_true, List.nil_append, List.mem_append]
      constructor
      · intro hm
        rcases hm with hm | hm
        · exact hm
        · exfalso
          obtain ⟨e, col, hcol⟩ := planEmbeds_shape reg _ children _ tableAlias _ hm
          have := congrArg GSel.kind hcol
          simp at this
      · intro hm
        exact Or.inl hm

def bookPubChildren : JsMap Selection :=
  [("title", leafSel),
   ("publisher", Selection.mk (some []) (some [("name", leafSel)]))]

theorem thm_C5_witness :
    (createQuery ⟨none, none⟩ regReqPub connBP "Book"
      (some (Selection.mk (some []) (some bookPubChildren))) emptyQB "root"
      (AnyVal.ctx ()) 0).selects =
      emptyQB.selects ++
        ((planQuery ⟨none, none⟩ regReqPub connBP "Book"
          (some (Selection.mk (some []) (some bookPubChildren))) "root" 0).1.map
            renderSel) ∧
    ∀ c ∈ (connBP "Book").columns,
      (GSel.mk [] (connBP "Book").target "root"
          (.columnKind c.propertyName c.databaseName) ∈
        (planQuery ⟨none, none⟩ regReqPub connBP "Book"
          (some (Selection.mk (some []) (some bookPubChildren))) "root" 0).1) ↔
      (ignoredB regReqPub (connBP "Book").target c.propertyName = false ∧
        (c.isPrimary = true ∨ jsHas bookPubChildren c.propertyName = true ∨
          reqTruthy (jsGet (regReqPub.required (connBP "Book").target)
            c.propertyName) = true)) :=
  thm_C5 ⟨none, none⟩ regReqPub connBP "Book" (some []) bookPubChildren emptyQB
    "root" (AnyVal.ctx ()) 0 rfl (by decide)

/-! ## Ignored-precedence lemmas (C6) -/

def kindMentions (p : String) : GSelKind → Bool
  | .pkKind c => c == p
  | .columnKind q _ => q == p
  | .embedKind e _ => e == p

theorem consPathSel_target (p0 : String) (g : GSel) :
    (consPathSel p0 g).target = g.target := rfl

theorem consPathSel_kind (p0 : String) (g : GSel) :
    (consPathSel p0 g).kind = g.kind := rfl

theorem consPathJoin_target (p0 : String) (g : GJoin) :
    (consPathJoin p0 g).target = g.target := rfl

theorem consPathJoin_prop (p0 : String) (g : GJoin) :
    (consPathJoin p0 g).prop = g.prop := rfl

theorem embedSels_emb {Ctx : Type} (reg : Registry Ctx) (children : JsMap Selection)
    (target tableAlias : String) (field : EmbeddedMeta) (g : GSel)
    (h : g ∈ embedSels reg children target tableAlias field) :
    ∃ c, g = GSel.mk [] target tableAlias (.embedKind field.propertyName c) := by
  unfold embedSels at h
  by_cases hreq : reqTruthy (jsGet (reg.required target) field.propertyName)
  · simp only [hreq, if_true, List.mem_map] at h
    obtain ⟨c, _, rfl⟩ := h
    exact ⟨_, rfl⟩
  · simp only [hreq, if_false, Bool.false_eq_true] at h
    by_cases hhas : jsHas children field.propertyName
    · simp only [hhas, if_true] at h
      cases hg : jsGet children field.propertyName with
      | none => rw [hg] at h; simp at h
      | some es =>
        rw [hg] at h
        simp only [List.mem_map] at h
        obtain ⟨c, _, rfl⟩ := h
        exact ⟨_, rfl⟩
    · simp [hhas] at h

theorem mem_planPk {r : Resolver} {fields : List ColumnMeta} {target tableAlias : String}
    {g : GSel} (h : g ∈ planPk r fields target tableAlias) :
    ∃ pk, r.primaryKeyColumn = some pk ∧
      g = GSel.mk [] target tableAlias (.pkKind pk) := by
  unfold planPk at h
  split at h
  · simp at h
  · rename_i pk hpkc
    split at h
    · simp at h
    · simp only [List.mem_singleton] at h
      exact ⟨pk, hpkc, h⟩

theorem planRelations_ignored {Ctx : Type} (r : Resolver) (reg : Registry Ctx)
    (conn : Connection) (T p : String) (hign : ignoredB reg T p = true)
    (children : JsMap Selection) (tableAlias target : String) (depth : Nat)
    (IH : ∀ (sel : Option Selection), optSize sel < 1 + mapSize children →
      ∀ (model a : String) (d : Nat),
        (∀ g ∈ (planQuery r reg conn model sel a d).1, g.target = T →
          kindMentions p g.kind = false) ∧
        (∀ g ∈ (planQuery r reg conn model sel a d).2, g.target = T →
          g.prop ≠ p)) :
    ∀ rels : List RelationMeta,
      (∀ rel ∈ rels, ignoredB reg target rel.propertyName = false) →
      (∀ g ∈ (planRelations r reg conn children rels tableAlias target depth).1,
        g.target = T → kindMentions p g.kind = false) ∧
      (∀ g ∈ (planRelations r reg conn children rels tableAlias target depth).2,
        g.target = T → g.prop ≠ p) := by
  intro rels
  induction rels with
  | nil =>
    intro _
    rw [planRelations]
    simp
  | cons relation rest ih =>
    intro hrels
    have hhead := hrels relation (List.mem_cons_self _ _)
    have htail := ih (fun rel hr => hrels rel (List.mem_cons_of_mem _ hr))
    rw [planRelations]
    by_cases hcond : jsHas children relation.propertyName ||
      reqTruthy (jsGet (reg.required target) relation.propertyName)
    · simp only [hcond, if_true]
      have hsub := IH (jsGet children relation.propertyName)
        (optSize_jsGet_lt children relation.propertyName)
        relation.inverseTarget
        (generateChildHash tableAlias relation.propertyName 10) 0
      constructor
      · intro g hg
        simp only [List.mem_append, List.mem_map] at hg
        rcases hg with ⟨g0, hg0, rfl⟩ | hg
        · intro ht
          rw [consPathSel_kind]
          exact hsub.1 g0 hg0 ht
        · exact htail.1 g hg
      · intro g hg
        simp only [List.mem_append, List.mem_cons, List.mem_map] at hg
        rcases hg with (rfl | ⟨g0, hg0, rfl⟩) | hg
        · intro hT heq
          simp only at hT heq
          rw [hT, heq] at hhead
          rw [hhead] at hign
          exact Bool.false_ne_true hign
        · intro ht
          rw [consPathJoin_prop]
          exact hsub.2 g0 hg0 ht
        · exact htail.2 g hg
    · simp only [hcond, if_false, Bool.false_eq_true]
      simpa using htail

theorem planQuery_ignored {Ctx : Type} (r : Resolver) (reg : Registry Ctx)
    (conn : Connection) (T p : String) (hpk : r.primaryKeyColumn ≠ some p)
    (hign : ignoredB reg T p = true) :
    ∀ (N : Nat) (sel : Option Selection), optSize sel ≤ N →
      ∀ (model tableAlias : String) (depth : Nat),
        (∀ g ∈ (planQuery r reg conn model sel tableAlias depth).1, g.target = T →
          kindMentions p g.kind = false) ∧
        (∀ g ∈ (planQuery r reg conn model sel tableAlias depth).2, g.target = T →
          g.prop ≠ p) := by
  intro N
  induction N with
  | zero =>
    intro sel h model tableAlias depth
    cases sel with
    | none => simp [planQuery]
    | some s =>
      exfalso
      have := selSize_pos s
      simp only [optSize] at h
      omega
  | succ N ihN =>
    intro sel h model tableAlias depth
    cases sel with
    | none => simp [planQuery]
    | some s =>
      cases s with
      | mk args childrenOpt =>
        cases childrenOpt with
        | none => simp [planQuery]
        | some children =>
          rw [planQuery]
          simp only
          have hlevel : ∀ g : GSel,
              ((g ∈ planPk r
                  ((conn model).columns.filter
                    (fun field =>
                      !((jsGet (reg.ignored (conn model).target)
                          field.propertyName).getD false) &&
                      (field.isPrimary || jsHas children field.propertyName ||
                        reqTruthy (jsGet (reg.required (conn model).target)
                          field.propertyName))))
                  (conn model).target tableAlias ∨
               g ∈ planFields
                  ((conn model).columns.filter
                    (fun field =>
                      !((jsGet (reg.ignored (conn model).target)
                          field.propertyName).getD false) &&
                      (field.isPrimary || jsHas children field.propertyName ||
                        reqTruthy (jsGet (reg.required (conn model).target)
                          field.propertyName))))
                  (conn model).target tableAlias) ∨
               g ∈ planEmbeds reg
                  ((conn model).embeddeds.filter
                    (fun embed =>
                      !((jsGet (reg.ignored (conn model).target)
                          embed.propertyName).getD false) &&
                      (jsHas children embed.propertyName ||
                        reqTruthy (jsGet (reg.required (conn model).target)
                          embed.propertyName))))
                  children (conn model).target tableAlias) →
              g.target = T → kindMentions p g.kind = false := by
            intro g hg hT
            rcases hg with (hg | hg) | hg
            · obtain ⟨pk, hpkc, rfl⟩ := mem_planPk hg
              simp only [kindMentions, beq_eq_false_iff_ne, ne_eq]
              intro hep
              exact hpk (by rw [hpkc, hep])
            · simp only [planFields, List.mem_map] at hg
              obtain ⟨field, hf, rfl⟩ := hg
              have hfilter := List.of_mem_filter hf
              simp only [Bool.and_eq_true, Bool.not_eq_true'] at hfilter
              simp only [kindMentions, beq_eq_false_iff_ne, ne_eq]
              intro hep
              simp only at hT
              rw [hT] at hfilter
              rw [hep] at hfilter
              have h0 : ignoredB reg T p = false := hfilter.1
              rw [h0] at hign
              exact Bool.false_ne_true hign
            · simp only [planEmbeds, List.mem_flatten, List.mem_map] at hg
              obtain ⟨l, ⟨field, hf, rfl⟩, hgl⟩ := hg
              obtain ⟨col, rfl⟩ := embedSels_emb reg children _ tableAlias field g hgl
              have hfilter := List.of_mem_filter hf
              simp only [Bool.and_eq_true, Bool.not_eq_true'] at hfilter
              simp only [kindMentions, beq_eq_false_iff_ne, ne_eq]
              intro hep
              simp only at hT
              rw [hT] at hfilter
              rw [hep] at hfilter
              have h0 : ignoredB reg T p = false := hfilter.1
              rw [h0] at hign
              exact Bool.false_ne_true hign
          have hrels : ∀ rel ∈ (conn model).relations.filter
              (fun relation => !(ignoredB reg (conn model).target
                relation.propertyName)),
              ignoredB reg (conn model).target rel.propertyName = false := by
            intro rel hr
            have := List.of_mem_filter hr
            simpa [Bool.not_eq_true'] using this
          have hIH : ∀ (sel : Option Selection),
              optSize sel < 1 + mapSize children →
              ∀ (model a : String) (d : Nat),
                (∀ g ∈ (planQuery r reg conn model sel a d).1, g.target = T →
                  kindMentions p g.kind = false) ∧
                (∀ g ∈ (planQuery r reg conn model sel a d).2, g.target = T →
                  g.prop ≠ p) := by
            intro sel' hlt model' a' d'
            apply ihN
            simp only [optSize, selSize] at h
            omega
          have hrel := planRelations_ignored r reg conn T p hign children
            tableAlias (conn model).target depth hIH
            ((conn model).relations.filter
              (fun relation => !(ignoredB reg (conn model).target
                relation.propertyName)))
            hrels
          by_cases hdep : depthLtMax r depth
          · simp only [hdep, if_true]
            constructor
            · intro g hg
              simp only [List.mem_append] at hg
              rcases hg with hg | hg
              · exact hlevel g hg
              · exact hrel.1 g hg
            · intro g hg
              exact hrel.2 g hg
          · simp only [hdep, if_false, Bool.false_eq_true]
            constructor
            · intro g hg
              simp only [List.mem_append] at hg
              exact hlevel g hg
            · intro g hg
              simp at hg

/-- C6: ignored takes precedence over required.  For a property p marked
ignored for entity type T (in particular one also marked required), no
planned select of any level whose entity target is T mentions p (as a
column, embed, or deprecated primary-key re-add, the latter excluded by
the hypothesis that the deprecated option does not itself name p), and no
planned join of a level with target T joins relation p; the first
conjunct ties the plan to the createQuery output. -/
theorem thm_C6 {Ctx : Type} (r : Resolver) (reg : Registry Ctx) (conn : Connection)
    (T p : String) (hpk : r.primaryKeyColumn ≠ some p)
    (hign : ignoredB reg T p = true) (model : String) (sel : Option Selection)
    (qb : QB) (tableAlias : String) (ctx : AnyVal Ctx) (depth : Nat) :
    createQuery r reg conn model sel qb tableAlias ctx depth =
      ⟨qb.selects ++
        ((planQuery r reg conn model sel tableAlias depth).1.map renderSel),
       qb.joins ++
        ((planQuery r reg conn model sel tableAlias depth).2.map renderJoin)⟩ ∧
    (∀ g ∈ (planQuery r reg conn model sel tableAlias depth).1, g.target = T →
      kindMentions p g.kind = false) ∧
    (∀ g ∈ (planQuery r reg conn model sel tableAlias depth).2, g.target = T →
      g.prop ≠ p) :=
  ⟨createQuery_plan r reg conn model sel qb tableAlias ctx depth,
   planQuery_ignored r reg conn T p hpk hign (optSize sel) sel (Nat.le_refl _)
     model tableAlias depth⟩

/-- Policy marking A.r both required and ignored. -/
def regIgnReq : Registry Unit :=
  ⟨fun t => if t = "A" then [("r", RequiredSpec.const true)] else [],
   fun t => if t = "A" then [("r", true)] else []⟩

theorem thm_C6_witness :
    createQuery ⟨none, none⟩ regIgnReq connA "A" (some selNested) emptyQB "root"
      (AnyVal.ctx ()) 0 =
      ⟨emptyQB.selects ++
        ((planQuery ⟨none, none⟩ regIgnReq connA "A" (some selNested) "root" 0).1.map
          renderSel),
       emptyQB.joins ++
        ((planQuery ⟨none, none⟩ regIgnReq connA "A" (some selNested) "root" 0).2.map
          renderJoin)⟩ ∧
    (∀ g ∈ (planQuery ⟨none, none⟩ regIgnReq connA "A" (some selNested) "root" 0).1,
      g.target = "A" → kindMentions "r" g.kind = false) ∧
    (∀ g ∈ (planQuery ⟨none, none⟩ regIgnReq connA "A" (some selNested) "root" 0).2,
      g.target = "A" → g.prop ≠ "r") :=
  thm_C6 ⟨none, none⟩ regIgnReq connA "A" "r" (by decide)
    (by simp [ignoredB, regIgnReq, jsGet]) "A" (some selNested) emptyQB "root"
    (AnyVal.ctx ()) 0

/-! ## Policy-truthiness invariance (C7) -/

theorem embedSels_policy {Ctx : Type} (reg1 reg2 : Registry Ctx)
    (children : JsMap Selection) (target tableAlias : String)
    (hreq : ∀ t q, reqTruthy (jsGet (reg1.required t) q) =
      reqTruthy (jsGet (reg2.required t) q)) (field : EmbeddedMeta) :
    embedSels reg1 children target tableAlias field =
      embedSels reg2 children target tableAlias field := by
  unfold embedSels
  rw [hreq target field.propertyName]

theorem planRelations_policy {Ctx : Type} (r : Resolver) (conn : Connection)
    (reg1 reg2 : Registry Ctx) (children : JsMap Selection)
    (tableAlias target : String) (depth : Nat)
    (hreq : ∀ t q, reqTruthy (jsGet (reg1.required t) q) =
      reqTruthy (jsGet (reg2.required t) q))
    (IH : ∀ (sel : Option Selection), optSize sel < 1 + mapSize children →
      ∀ (model a : String) (d : Nat),
        planQuery r reg1 conn model sel a d = planQuery r reg2 conn model sel a d) :
    ∀ rels : List RelationMeta,
      planRelations r reg1 conn children rels tableAlias target depth =
        planRelations r reg2 conn children rels tableAlias target depth := by
  intro rels
  induction rels with
  | nil => rw [planRelations, planRelations]
  | cons relation rest ih =>
    simp only [planRelations]
    rw [hreq target relation.propertyName]
    rw [IH (jsGet children relation.propertyName)
      (optSize_jsGet_lt children relation.propertyName) relation.inverseTarget
      (generateChildHash tableAlias relation.propertyName 10) 0]
    rw [ih]

theorem planQuery_policy {Ctx : Type} (r : Resolver) (conn : Connection)
    (reg1 reg2 : Registry Ctx)
    (hreq : ∀ t q, reqTruthy (jsGet (reg1.required t) q) =
      reqTruthy (jsGet (reg2.required t) q))
    (hign : ∀ t q, (jsGet (reg1.ignored t) q).getD false =
      (jsGet (reg2.ignored t) q).getD false) :
    ∀ (N : Nat) (sel : Option Selection), optSize sel ≤ N →
      ∀ (model tableAlias : String) (depth : Nat),
        planQuery r reg1 conn model sel tableAlias depth =
          planQuery r reg2 conn model sel tableAlias depth := by
  intro N
  induction N with
  | zero =>
    intro sel h model tableAlias depth
    cases sel with
    | none => simp [planQuery]
    | some s =>
      exfalso
      have := selSize_pos s
      simp only [optSize] at h
      omega
  | succ N ihN =>
    intro sel h model tableAlias depth
    cases sel with
    | none => simp [planQuery]
    | some s =>
      cases s with
      | mk args childrenOpt =>
        cases childrenOpt with
        | none => simp [planQuery]
        | some children =>
          simp only [planQuery]
          have hfields :
              (conn model).columns.filter
                (fun field =>
                  !((jsGet (reg1.ignored (conn model).target)
                      field.propertyName).getD false) &&
                  (field.isPrimary || jsHas children field.propertyName ||
                    reqTruthy (jsGet (reg1.required (conn model).target)
                      field.propertyName))) =
              (conn model).columns.filter
                (fun field =>
                  !((jsGet (reg2.ignored (conn model).target)
                      field.propertyName).getD false) &&
                  (field.isPrimary || jsHas children field.propertyName ||
                    reqTruthy (jsGet (reg2.required (conn model).target)
                      field.propertyName))) := by
            apply List.filter_congr
            intro field _
            rw [hreq (conn model).target field.propertyName,
              hign (conn model).target field.propertyName]
          have hembeds :
              (conn model).embeddeds.filter
                (fun embed =>
                  !((jsGet (reg1.ignored (conn model).target)
                      embed.propertyName).getD false) &&
                  (jsHas children embed.propertyName ||
                    reqTruthy (jsGet (reg1.required (conn model).target)
                      embed.propertyName))) =
              (conn model).embeddeds.filter
                (fun embed =>
                  !((jsGet (reg2.ignored (conn model).target)
                      embed.propertyName).getD false) &&
                  (jsHas children embed.propertyName ||
                    reqTruthy (jsGet (reg2.required (conn model).target)
                      embed.propertyName))) := by
            apply List.filter_congr
            intro embed _
            rw [hreq (conn model).target embed.propertyName,
              hign (conn model).target embed.propertyName]
          have hpe : ∀ E : List EmbeddedMeta,
              planEmbeds reg1 E children (conn model).target tableAlias =
                planEmbeds reg2 E children (conn model).target tableAlias := by
            intro E
            simp only [planEmbeds]
            rw [funext (embedSels_policy reg1 reg2 children (conn model).target
              tableAlias hreq)]
          have hrelsfilter :
              (conn model).relations.filter
                (fun relation =>
                  !(ignoredB reg1 (conn model).target relation.propertyName)) =
              (conn model).relations.filter
                (fun relation =>
                  !(ignoredB reg2 (conn model).target relation.propertyName)) := by
            apply List.filter_congr
            intro relation _
            simp only [ignoredB]
            rw [hign (conn model).target relation.propertyName]
          have hIH : ∀ (sel : Option Selection),
              optSize sel < 1 + mapSize children →
              ∀ (model a : String) (d : Nat),
                planQuery r reg1 conn model sel a d =
                  planQuery r reg2 conn model sel a d := by
            intro sel' hlt model' a' d'
            apply ihN
            simp only [optSize, selSize] at h
            omega
          rw [hfields, hembeds, hpe, hrelsfilter]
          rw [planRelations_policy r conn reg1 reg2 children tableAlias
            (conn model).target depth hreq hIH]

def a2Meta : EntityMeta :=
  ⟨"A2", [⟨"id", "id", true⟩, ⟨"c", "c", false⟩], [], []⟩

def connA2 : Connection := fun _ => a2Meta

/-- Policy whose required entry for A2.c is a predicate that always
returns false. -/
def regPredFalse : Registry Unit :=
  ⟨fun t => if t = "A2" then [("c", RequiredSpec.pred (fun _ _ => false))] else [],
   fun _ => []⟩

/-- C7 (counterexample): the required-field policy for column c is a
predicate returning false, c is not selected by the client, yet resolving
selects c — the live path treats the function value as truthy and never
invokes it, so a false predicate still causes inclusion. -/
theorem thm_C7_cex :
    (createQuery ⟨none, none⟩ regPredFalse connA2 "A2"
      (some (Selection.mk (some []) (some [("x", leafSel)]))) emptyQB "root"
      (AnyVal.ctx ()) 0).selects =
      [(columnSelection "root" "id", some (aliasField "root" "id")),
       (columnSelection "root" "c", some (aliasField "root" "c"))] := by
  simp [createQuery, selectRelations, leafSel, connA2, a2Meta, regPredFalse,
    selectFields, selectPrimaryKey, selectEmbeddedFields, depthLtMax, reqTruthy,
    ignoredB, jsGet, jsHas, jsSet, QB.addSelect, QB.leftJoin, QB.leftJoinAndSelect,
    emptyQB]

theorem selectRequiredFields_pred {Ctx : Type} (reg : Registry Ctx) (qb : QB)
    (children : JsMap Selection) (tableAlias : String) (meta : EntityMeta)
    (ctx : AnyVal Ctx) (q : String) (f : AnyVal Ctx → List String → Bool)
    (col : ColumnMeta)
    (hreg : reg.required meta.target = [(q, RequiredSpec.pred f)])
    (hfind : meta.columns.find? (fun c => c.propertyName = q) = some col) :
    selectRequiredFields reg qb children tableAlias meta ctx =
      if f ctx (jsKeys children) then
        qb.addSelect (columnSelection tableAlias col.propertyName)
          (some (aliasField tableAlias col.databaseName))
      else qb := by
  unfold selectRequiredFields
  rw [hreg]
  simp only [List.foldl_cons, List.foldl_nil, evalRequired]
  by_cases hf : f ctx (jsKeys children)
  · simp [hf, hfind]
  · simp [hf]

/-- C7 (amended): in the live resolution path the resolver never invokes a
required-field predicate — its output depends on the required policy only
through JS truthiness (a function value is truthy, a boolean is itself),
so two registries whose entries agree in truthiness and in ignored flags
produce identical queries even when their predicates differ arbitrarily;
predicate evaluation with (context, requested child-field names) happens
only in the inert _selectRequiredFields pass, which treats a property as
required exactly when the predicate returns true. -/
theorem thm_C7 {Ctx : Type} (r : Resolver) (conn : Connection) :
    (∀ reg1 reg2 : Registry Ctx,
      (∀ t q, reqTruthy (jsGet (reg1.required t) q) =
        reqTruthy (jsGet (reg2.required t) q)) →
      (∀ t q, (jsGet (reg1.ignored t) q).getD false =
        (jsGet (reg2.ignored t) q).getD false) →
      ∀ (model : String) (sel : Option Selection) (qb : QB) (tableAlias : String)
        (ctx : AnyVal Ctx) (depth : Nat),
        createQuery r reg1 conn model sel qb tableAlias ctx depth =
          createQuery r reg2 conn model sel qb tableAlias ctx depth) ∧
    (∀ (reg : Registry Ctx) (qb : QB) (children : JsMap Selection)
      (tableAlias : String) (meta : EntityMeta) (ctx : AnyVal Ctx) (q : String)
      (f : AnyVal Ctx → List String → Bool) (col : ColumnMeta),
      reg.required meta.target = [(q, RequiredSpec.pred f)] →
      meta.columns.find? (fun c => c.propertyName = q) = some col →
      selectRequiredFields reg qb children tableAlias meta ctx =
        if f ctx (jsKeys children) then
          qb.addSelect (columnSelection tableAlias col.propertyName)
            (some (aliasField tableAlias col.databaseName))
        else qb) := by
  constructor
  · intro reg1 reg2 hreq hign model sel qb tableAlias ctx depth
    rw [createQuery_plan, createQuery_plan,
      planQuery_policy r conn reg1 reg2 hreq hign (optSize sel) sel
        (Nat.le_refl _) model tableAlias depth]
  · intro reg qb children tableAlias meta ctx q f col hreg hfind
    exact selectRequiredFields_pred reg qb children tableAlias meta ctx q f col
      hreg hfind

/-! ## Flatten-merge lemmas (C9, C10) -/

/-- The field names a selection list contributes at the current level,
fragments flattened in place. -/
def topNames : List ASTNode → List String
  | [] => []
  | .fieldNode n _ _ :: rest => n :: topNames rest
  | .inlineFragmentNode sels :: rest => topNames sels ++ topNames rest
termination_by l => astListSize l
decreasing_by
  · simp only [astListSize, astSize]; omega
  · simp only [astListSize, astSize]; omega
  · simp only [astListSize, astSize]; omega

theorem jsHas_jsSet {α : Type} (m : JsMap α) (key k : String) (v : α) :
    jsHas (jsSet m key v) k = true ↔ (k = key ∨ jsHas m k = true) := by
  induction m with
  | nil =>
    simp only [jsSet, jsHas, jsGet]
    by_cases hk : key = k
    · simp [hk]
    · simp only [hk, if_false]
      simp only [Option.isSome_none, Bool.false_eq_true, or_false, false_iff]
      exact fun h => hk h.symm
  | cons hd tl ih =>
    obtain ⟨k', w⟩ := hd
    by_cases hk : k' = key
    · subst hk
      simp only [jsSet, if_true]
      by_cases hkk : k' = k
      · simp [jsHas, jsGet, hkk]
      · simp only [jsHas, jsGet, hkk, if_false]
        constructor
        · intro h; exact Or.inr h
        · intro h
          rcases h with h | h
          · exact absurd h.symm hkk
          · exact h
    · simp only [jsSet, hk, if_false]
      by_cases hkk : k' = k
      · simp [jsHas, jsGet, hkk]
      · simp only [jsHas, jsGet, hkk, if_false]
        exact ih

theorem jsHas_flattenList :
    ∀ (N : Nat) (sels : List ASTNode), astListSize sels ≤ N →
      ∀ (obj : JsMap Selection) (k : String),
        jsHas (flattenList sels obj) k = true ↔
          (jsHas obj k = true ∨ k ∈ topNames sels) := by
  intro N
  induction N with
  | zero =>
    intro sels h obj k
    cases sels with
    | nil => simp [flattenList, topNames]
    | cons n rest =>
      exfalso
      cases n <;> simp [astListSize, astSize] at h
  | succ N ihN =>
    intro sels h obj k
    cases sels with
    | nil => simp [flattenList, topNames]
    | cons n rest =>
      cases n with
      | inlineFragmentNode fsels =>
        rw [flattenList]
        rw [topNames]
        have h1 : astListSize rest ≤ N := by
          simp only [astListSize, astSize] at h; omega
        have h2 : astListSize fsels ≤ N := by
          simp only [astListSize, astSize] at h; omega
        rw [ihN rest h1, ihN fsels h2]
        simp only [List.mem_append]
        tauto
      | fieldNode name args fsels =>
        rw [flattenList]
        rw [topNames]
        have h1 : astListSize rest ≤ N := by
          simp only [astListSize, astSize] at h; omega
        cases hg : jsGet obj name with
        | some existing =>
          rw [ihN rest h1]
          rw [jsHas_jsSet]
          have hobj : jsHas obj name = true := by simp [jsHas, hg]
          simp only [List.mem_cons]
          constructor
          · intro hx
            rcases hx with (rfl | hx) | hx
            · exact Or.inl hobj
            · exact Or.inl hx
            · exact Or.inr (Or.inr hx)
          · intro hx
            rcases hx with hx | hx | hx
            · exact Or.inl (Or.inr hx)
            · exact Or.inl (Or.inl hx)
            · exact Or.inr hx
        | none =>
          rw [ihN rest h1]
          rw [jsHas_jsSet]
          simp only [List.mem_cons]
          tauto
  
theorem flattenList_prepend :
    ∀ (N : Nat) (sels : List ASTNode), astListSize sels ≤ N →
      ∀ (m₁ m₂ : JsMap Selection),
        (∀ k, k ∈ topNames sels → jsHas m₁ k = false) →
        flattenList sels (m₁ ++ m₂) = m₁ ++ flattenList sels m₂ := by
  intro N
  induction N with
  | zero =>
    intro sels h m₁ m₂ hdisj
    cases sels with
    | nil => rw [flattenList, flattenList]
    | cons n rest =>
      exfalso
      cases n <;> simp [astListSize, astSize] at h
  | succ N ihN =>
    intro sels h m₁ m₂ hdisj
    cases sels with
    | nil => rw [flattenList, flattenList]
    | cons n rest =>
      cases n with
      | inlineFragmentNode fsels =>
        rw [flattenList]
        have h1 : astListSize rest ≤ N := by
          simp only [astListSize, astSize] at h; omega
        have h2 : astListSize fsels ≤ N := by
          simp only [astListSize, astSize] at h; omega
        have hd2 : ∀ k, k ∈ topNames fsels → jsHas m₁ k = false := by
          intro k hk
          apply hdisj
          rw [topNames]
          exact List.mem_append_left _ hk
        have hd1 : ∀ k, k ∈ topNames rest → jsHas m₁ k = false := by
          intro k hk
          apply hdisj
          rw [topNames]
          exact List.mem_append_right _ hk
        rw [ihN fsels h2 m₁ m₂ hd2]
        rw [ihN rest h1 m₁ (flattenList fsels m₂) hd1]
        rw [flattenList]
      | fieldNode name args fsels =>
        have h1 : astListSize rest ≤ N := by
          simp only [astListSize, astSize] at h; omega
        have hname : jsHas m₁ name = false := by
          apply hdisj
          rw [topNames]
          exact List.mem_cons_self _ _
        have hd1 : ∀ k, k ∈ topNames rest → jsHas m₁ k = false := by
          intro k hk
          apply hdisj
          rw [topNames]
          exact List.mem_cons_of_mem _ hk
        rw [flattenList]
        rw [jsGet_append_right m₁ m₂ name hname]
        cases hg : jsGet m₂ name with
        | some existing =>
          show flattenList rest
              (jsSet (m₁ ++ m₂) name
                (Selection.mk existing.arguments
                  (some (flattenList fsels (existing.children.getD []))))) =
            m₁ ++ flattenList (ASTNode.fieldNode name args fsels :: rest) m₂
          rw [jsSet_append_of_not_has m₁ m₂ name _ hname]
          rw [ihN rest h1 m₁ _ hd1]
          have hrhs : flattenList (ASTNode.fieldNode name args fsels :: rest) m₂ =
              flattenList rest
                (jsSet m₂ name
                  (Selection.mk existing.arguments
                    (some (flattenList fsels (existing.children.getD []))))) := by
            rw [flattenList, hg]
          rw [hrhs]
        | none =>
          show flattenList rest
              (jsSet (m₁ ++ m₂) name
                (Selection.mk (some (decodeArgs args))
                  (some (flattenList fsels [])))) =
            m₁ ++ flattenList (ASTNode.fieldNode name args fsels :: rest) m₂
          rw [jsSet_append_of_not_has m₁ m₂ name _ hname]
          rw [ihN rest h1 m₁ _ hd1]
          have hrhs : flattenList (ASTNode.fieldNode name args fsels :: rest) m₂ =
              flattenList rest
                (jsSet m₂ name
                  (Selection.mk (some (decodeArgs args))
                    (some (flattenList fsels [])))) := by
            rw [flattenList, hg]
          rw [hrhs]

/-- C9: normalizing a level that selects field n twice — once directly and
once through a fragment — produces exactly one node for n; its children
map is the second occurrence's children flattened INTO the first's
(union merge, not replace), so a name is a key of the merged children iff
it is a key of either occurrence's own flattened children; and when the
two child sets are disjoint the merged children map is literally the
first occurrence's children followed by the second's. -/
theorem thm_C9 (n : String) (a1 a2 : Option (List (String × ValueNode)))
    (s1 s2 : List ASTNode) :
    flattenList [.fieldNode n a1 s1, .inlineFragmentNode [.fieldNode n a2 s2]] [] =
      [(n, Selection.mk (some (decodeArgs a1))
        (some (flattenList s2 (flattenList s1 []))))] ∧
    (∀ k, jsHas (flattenList s2 (flattenList s1 [])) k = true ↔
      (jsHas (flattenList s1 []) k = true ∨ jsHas (flattenList s2 []) k = true)) ∧
    ((∀ k, ¬(jsHas (flattenList s1 []) k = true ∧
        jsHas (flattenList s2 []) k = true)) →
      flattenList s2 (flattenList s1 []) =
        flattenList s1 [] ++ flattenList s2 []) := by
  refine ⟨?_, ?_, ?_⟩
  · simp [flattenList, jsGet, jsSet, Selection.arguments, Selection.children]
  · intro k
    rw [jsHas_flattenList (astListSize s2) s2 (Nat.le_refl _)]
    rw [jsHas_flattenList (astListSize s2) s2 (Nat.le_refl _) [] k]
    simp [jsHas, jsGet]
  · intro hdisj
    have hm : ∀ k, k ∈ topNames s2 → jsHas (flattenList s1 []) k = false := by
      intro k hk
      by_cases hb : jsHas (flattenList s1 []) k = true
      · exfalso
        apply hdisj k
        refine ⟨hb, ?_⟩
        rw [jsHas_flattenList (astListSize s2) s2 (Nat.le_refl _) [] k]
        exact Or.inr hk
      · exact Bool.not_eq_true _ ▸ (Bool.eq_false_iff.mpr hb)
    have := flattenList_prepend (astListSize s2) s2 (Nat.le_refl _)
      (flattenList s1 []) [] hm
    rw [List.append_nil] at this
    exact this

/-- C10: when two direct selections of the same field name n merge, the
merged node keeps the decoded arguments of the FIRST occurrence (a1)
only — a2 is arbitrary and discarded — while the children maps are
merged by flattening the second occurrence's selections into the first
occurrence's children. -/
theorem thm_C10 (n : String) (a1 a2 : Option (List (String × ValueNode)))
    (s1 s2 : List ASTNode) :
    flattenList [.fieldNode n a1 s1, .fieldNode n a2 s2] [] =
      [(n, Selection.mk (some (decodeArgs a1))
        (some (flattenList s2 (flattenList s1 []))))] := by
  simp [flattenList, jsGet, jsSet, Selection.arguments, Selection.children]
